import Mathlib

/-!
Shallow embedding of the game-logic core of `tetris.py` (with the
near-duplicate draft `tetris_dev.py` where the claims reference it):
shape templates, rotation, anchor ("origin") lookup, collision, placement,
row clearing, scoring, fall-interval scaling, wall-kick resolution,
spawning, and the per-tick input dispatch loop.

All shape matrices use the same top-down row layout as the Python source;
board cell grids use row index 0 as the bottom row, as in the source.
-/

namespace ArcadeTetris

/-- Shape-matrix cell tags used by the tetromino templates:
`e` is the empty cell `'_'`, `t` a filled cell `'T'`, `o` the anchor cell `'O'`. -/
inductive SCell
  | e
  | t
  | o
deriving DecidableEq, Repr

/-- A board cell: either empty (`'_'`) or holding a locked RGB color. -/
inductive Cell
  | empty
  | filled (color : ℕ × ℕ × ℕ)
deriving DecidableEq, Repr

/-- `Position`: an (x, y) pair on the board, also used for relative
positions and for the direction unit vectors. -/
structure Pos where
  x : ℤ
  y : ℤ
deriving DecidableEq, Repr

/-- `Position.add`. -/
def Pos.add (p other : Pos) : Pos := ⟨p.x + other.x, p.y + other.y⟩

/-- `Position.subtract`. -/
def Pos.subtract (p q : Pos) : Pos := ⟨p.x - q.x, p.y - q.y⟩

/-- `Direction`: 4-way enum, in the source's member declaration order
UP, RIGHT, DOWN, LEFT. -/
inductive Direction
  | UP
  | RIGHT
  | DOWN
  | LEFT
deriving DecidableEq, Repr, Fintype

/-- The unit vector bound to each `Direction` member (bottom-left coordinate
system: +y is up). -/
def Direction.value : Direction → Pos
  | .UP => ⟨0, 1⟩
  | .RIGHT => ⟨1, 0⟩
  | .DOWN => ⟨0, -1⟩
  | .LEFT => ⟨-1, 0⟩

/-- `list(Direction)`: the enum members in declaration order. -/
def directionList : List Direction := [.UP, .RIGHT, .DOWN, .LEFT]

/-- `list(Direction).index(self)`. -/
def Direction.index : Direction → ℕ
  | .UP => 0
  | .RIGHT => 1
  | .DOWN => 2
  | .LEFT => 3

/-- `Direction.rotate`: step to the next (clockwise) or previous
(counter-clockwise) member, cyclically; Python's `%` on a positive modulus
agrees with `Int.emod`. -/
def Direction.rotate (d : Direction) (clockwise : Bool) : Direction :=
  directionList.getD (((d.index : ℤ) + (if clockwise then 1 else -1)).emod 4).toNat .UP

/-- `Direction.get_opposite`. -/
def Direction.get_opposite : Direction → Direction
  | .UP => .DOWN
  | .DOWN => .UP
  | .LEFT => .RIGHT
  | .RIGHT => .LEFT

/-- `Tetromino`: a shape matrix plus a color. -/
structure Tetromino where
  shape : List (List SCell)
  color : ℕ × ℕ × ℕ
deriving DecidableEq, Repr

/-- The source's local `transpose` helper: allocate a
`len(matrix[0]) × len(matrix)` grid of `'_'` and write
`transposed[x][y] = matrix[y][x]` for every cell of `matrix`.
(All templates are rectangular, where this is the ordinary transpose.) -/
def transpose (matrix : List (List SCell)) : List (List SCell) :=
  (List.range (matrix.headD []).length).map fun x =>
    (List.range matrix.length).map fun y => (matrix.getD y []).getD x SCell.e

/-- `Tetromino.rotate`: return the shape matrix rotated to the given
orientation (the stored shape is the UP orientation). -/
def Tetromino.rotate (self : Tetromino) (rotation : Direction) : List (List SCell) :=
  match rotation with
  | .UP => self.shape
  | .DOWN => (self.shape.reverse).map List.reverse
  | .RIGHT => transpose self.shape.reverse
  | .LEFT => (transpose self.shape).reverse

/-- The scan inside `Tetromino.get_origin`: walk the rows (already
bottom-up), and in each row the cells left-to-right, returning the first
`'O'` cell's (x, y). -/
def originScan : List (List SCell) → ℕ → Option Pos
  | [], _ => none
  | row :: rest, y =>
    match row.findIdx? (fun c => c == SCell.o) with
    | some x => some ⟨(x : ℤ), (y : ℤ)⟩
    | none => originScan rest (y + 1)

/-- `Tetromino.get_origin`: position of the anchor (`'O'`) cell in the
rotated matrix, counting rows from the bottom; `(0, 0)` when absent. -/
def Tetromino.get_origin (self : Tetromino) (rotation : Direction) : Pos :=
  (originScan ((self.rotate rotation).reverse) 0).getD ⟨0, 0⟩

/-- The `I` template. -/
def tetI : Tetromino := ⟨[[.t], [.o], [.t], [.t]], (0, 209, 146)⟩

/-- The `J` template. -/
def tetJ : Tetromino := ⟨[[.e, .t], [.e, .o], [.t, .t]], (48, 105, 152)⟩

/-- The `L` template. -/
def tetL : Tetromino := ⟨[[.t, .e], [.o, .e], [.t, .t]], (208, 112, 56)⟩

/-- The `O` template (note: its shape matrix contains no `'O'` anchor tag). -/
def tetO : Tetromino := ⟨[[.t, .t], [.t, .t]], (221, 225, 0)⟩

/-- The `S` template. -/
def tetS : Tetromino := ⟨[[.e, .o, .t], [.t, .t, .e]], (123, 209, 46)⟩

/-- The `T` template. -/
def tetT : Tetromino := ⟨[[.t, .o, .t], [.e, .t, .e]], (186, 0, 166)⟩

/-- The `Z` template. -/
def tetZ : Tetromino := ⟨[[.t, .t, .e], [.e, .o, .t]], (202, 7, 67)⟩

/-- `Tetromino.get_all()`: the 7 templates. -/
def tetrominoList : List Tetromino := [tetI, tetJ, tetL, tetO, tetS, tetT, tetZ]

/-- Number of anchor-tagged (`'O'`) cells in a shape matrix. -/
def anchorCount (m : List (List SCell)) : ℕ :=
  (m.flatten.filter (fun c => c == SCell.o)).length

/-- The rotation table as the spec words it, with `List.transpose`
standing for "transpose (swap row/column indices)". Used as the
independent reference point for claim C2. -/
def specRotatedShape (m : List (List SCell)) : Direction → List (List SCell)
  | .UP => m
  | .DOWN => (m.reverse).map List.reverse
  | .RIGHT => List.transpose m.reverse
  | .LEFT => (List.transpose m).reverse

/-- `tetris_dev.py`'s `transpose` helper: `zip(*shape)` materialised as
lists — column `i` of the result is the `i`-th cell of every row, with the
column count truncated to the shortest row (all templates are rectangular). -/
def devTranspose (shape : List (List SCell)) : List (List SCell) :=
  match shape with
  | [] => []
  | r0 :: rest =>
    (List.range (rest.foldl (fun a row => min a row.length) r0.length)).map fun i =>
      (r0 :: rest).map fun row => row.getD i SCell.e

/-- `Piece.get_rotated_shape` from `tetris_dev.py` (the dictionary of the
four transforms, selected by the current rotation). -/
def devRotatedShape (shape : List (List SCell)) : Direction → List (List SCell)
  | .UP => shape
  | .DOWN => (shape.reverse).map List.reverse
  | .RIGHT => devTranspose shape.reverse
  | .LEFT => (devTranspose shape).reverse

/-- `Piece`: a tetromino instance with a board position and orientation. -/
structure PieceS where
  tetromino : Tetromino
  position : Pos
  rotation : Direction
  is_ghost_piece : Bool
deriving DecidableEq, Repr

/-- `Board`: fixed dimensions plus the cell grid (row 0 is the bottom row;
new empty rows are appended at the top). -/
structure Board where
  width : ℕ
  height : ℕ
  cells : List (List Cell)
deriving DecidableEq, Repr

/-- `Board.is_within_bounds`: `0 <= x < len(cells[0]) and 0 <= y < len(cells)`. -/
def Board.is_within_bounds (b : Board) (x y : ℤ) : Bool :=
  decide (0 ≤ x) && decide (x < ((b.cells.headD []).length : ℤ)) &&
    decide (0 ≤ y) && decide (y < (b.cells.length : ℤ))

/-- `Piece.is_colliding`: scan the rotated shape bottom-up; any non-empty
shape cell that lands out of bounds or on an occupied board cell collides.
(The board read happens only when the bounds check passed, as in the source.) -/
def PieceS.is_colliding (p : PieceS) (b : Board) : Bool :=
  let rotated := p.tetromino.rotate p.rotation
  let origin := p.tetromino.get_origin p.rotation
  rotated.reverse.enum.any fun yr =>
    yr.2.enum.any fun xc =>
      xc.2 != SCell.e &&
        (let q := (p.position.subtract origin).add ⟨(xc.1 : ℤ), (yr.1 : ℤ)⟩
         !(b.is_within_bounds q.x q.y) ||
           ((b.cells.getD q.y.toNat []).getD q.x.toNat Cell.empty != Cell.empty))

/-- The non-empty cells of a shape matrix as positions relative to the
matrix's bottom-left corner (the iteration order of the placement loop). -/
def relativeCells (m : List (List SCell)) : List Pos :=
  m.reverse.enum.flatMap fun yr =>
    yr.2.enum.filterMap fun xc =>
      if xc.2 != SCell.e then some ⟨(xc.1 : ℤ), (yr.1 : ℤ)⟩ else none

/-- Board-space cells written by `Piece.place`: each non-empty shape cell
translated by `position - origin`. -/
def PieceS.place_cells (p : PieceS) : List Pos :=
  (relativeCells (p.tetromino.rotate p.rotation)).map fun q =>
    (p.position.subtract (p.tetromino.get_origin p.rotation)).add q

/-- Write one board cell. The Python indexing would wrap a negative index or
raise outside the list; `Piece.place` is only reached through the collision
check, where every write is in bounds and this guarded model coincides. -/
def setCellB (cells : List (List Cell)) (x y : ℤ) (c : Cell) : List (List Cell) :=
  if 0 ≤ y ∧ y < (cells.length : ℤ) ∧ 0 ≤ x ∧ x < (((cells.getD y.toNat []).length : ℤ)) then
    cells.set y.toNat ((cells.getD y.toNat []).set x.toNat c)
  else cells

/-- The board-mutating part of `Piece.place`: write the tetromino's color
into every occupied cell (the trailing `game.clear_rows()` call is composed
in at the `Game` level, see `Game.place_piece`). -/
def PieceS.placeOnBoard (p : PieceS) (b : Board) : Board :=
  { b with
    cells := p.place_cells.foldl
      (fun cs q => setCellB cs q.x q.y (Cell.filled p.tetromino.color)) b.cells }

/-- `'_' not in row`. -/
def rowFull (row : List Cell) : Bool := !(row.contains Cell.empty)

/-- The loop of `Board.get_clearable_rows`: `y` enumerates rows bottom-up,
full rows are appended in ascending order. -/
def clearableAux : ℕ → List (List Cell) → List ℕ
  | _, [] => []
  | y, row :: rest => (if rowFull row then [y] else []) ++ clearableAux (y + 1) rest

/-- `Board.get_clearable_rows`. -/
def Board.get_clearable_rows (b : Board) : List ℕ := clearableAux 0 b.cells

/-- The cell-grid effect of `Board.clear_row`: pop the given row and append
a fresh empty row (sized from the new `cells[0]`) at the top end of the list. -/
def clearRowCells (cs : List (List Cell)) (row : ℕ) : List (List Cell) :=
  let popped := cs.eraseIdx row
  popped ++ [List.replicate (popped.headD []).length Cell.empty]

/-- `Board.clear_row`. -/
def Board.clear_row (b : Board) (row : ℕ) : Board :=
  { b with cells := clearRowCells b.cells row }

/-- `sorted(rows, reverse=True)`: Python's stable ascending sort, viewed
largest-first. -/
def sortedRev (l : List ℕ) : List ℕ := (l.insertionSort (· ≤ ·)).reverse

/-- `score_rewards`: the lines-cleared → score dictionary (defined only
for 1 through 4; `none` models a `KeyError`). -/
def score_rewards : ℕ → Option ℕ
  | 1 => some 100
  | 2 => some 300
  | 3 => some 500
  | 4 => some 800
  | _ => none

/-- `min_fall_interval`. -/
def min_fall_interval : ℚ := 3 / 10

/-- `fall_increase_threshold`. -/
def fall_increase_threshold : ℕ := 1000

/-- `fall_increase_rate` (the source's float `0.05`, modelled exactly). -/
def fall_increase_rate : ℚ := 5 / 100

/-- The session state owned by `Game` (window/drawing state is external;
`spawn_queue` models the outcomes of `random.choice` as an input stream). -/
structure GameState where
  board : Board
  score : ℕ
  lines : ℕ
  fall_interval : ℚ
  fall_timer : ℚ
  game_over : Bool
  falling_piece : PieceS
  ghost_piece : PieceS
  keys : List ℕ
  last_keys : List ℕ
  repeat_delays : List (ℕ × Option ℚ)
  spawn_queue : List Tetromino
deriving DecidableEq, Repr

/-- `Game.clear_rows`: add the reward for the number of clearable rows (the
dict lookup raises outside 1..4; claim C10 shows every invocation stays in
0..4, where this `getD 0` total model coincides), clear those rows from
highest index to lowest counting a line each, then recompute the fall
interval from the updated score. -/
def Game.clear_rows (s : GameState) : GameState :=
  let clearable := s.board.get_clearable_rows
  let score' := if clearable.length ≠ 0 then s.score + (score_rewards clearable.length).getD 0
    else s.score
  let bl := (sortedRev clearable).foldl
    (fun (p : Board × ℕ) row => (p.1.clear_row row, p.2 + 1)) (s.board, s.lines)
  let thresholds_crossed : ℕ := score' / fall_increase_threshold
  let new_fall_interval : ℚ := 1 - (thresholds_crossed : ℚ) * fall_increase_rate
  { s with
    board := bl.1
    lines := bl.2
    score := score'
    fall_interval := max new_fall_interval min_fall_interval }

/-- `Piece.place` as seen from the session: write the piece into the board,
then run the game's row-clear evaluation. -/
def Game.place_piece (s : GameState) (p : PieceS) : GameState :=
  Game.clear_rows { s with board := p.placeOnBoard s.board }

/-- `Game.spawn_piece`: build a new piece of the next queued (randomly
chosen) template at the top-centre of the board; if it already collides,
set the game-over flag. The piece is returned in either case. -/
def Game.spawn_piece (s : GameState) : PieceS × GameState :=
  let tetromino := s.spawn_queue.headD tetI
  let s1 := { s with spawn_queue := s.spawn_queue.tail }
  let x : ℤ := ((s.board.width / 2 : ℕ) : ℤ)
  let y : ℤ := (s.board.height : ℤ) -
    ((tetromino.shape.length : ℤ) - (tetromino.get_origin .UP).y)
  let new_piece : PieceS := ⟨tetromino, ⟨x, y⟩, .UP, false⟩
  let s2 := if new_piece.is_colliding s1.board then { s1 with game_over := true } else s1
  (new_piece, s2)

/-- The positioning part of `Piece.drop`: move down until colliding, then
back up one cell. The source's `while` loop is modelled by searching for the
first colliding depth within `fuel` rows, which every canonical (non-empty)
piece reaches by falling past the board's bottom edge. -/
def PieceS.dropPiece (p : PieceS) (b : Board) : PieceS :=
  let fuel := p.position.y.toNat + b.cells.length + 8
  match (List.range fuel).find?
      (fun d => ({ p with position := ⟨p.position.x, p.position.y - d⟩ } : PieceS).is_colliding b) with
  | some d => { p with position := ⟨p.position.x, p.position.y - d + 1⟩ }
  | none => p

/-- `Game.update_ghost_piece`: copy the falling piece's pose into the ghost
and drop it (without placing). -/
def Game.update_ghost_piece (s : GameState) : GameState :=
  let g := { s.ghost_piece with
    rotation := s.falling_piece.rotation
    position := s.falling_piece.position
    tetromino := s.falling_piece.tetromino }
  { s with ghost_piece := g.dropPiece s.board }

/-- `Piece.fall`: move down one cell; on collision move back up, place into
the board (running row clears), spawn a replacement and recompute the ghost. -/
def Game.fall (s : GameState) : GameState :=
  let p := { s.falling_piece with position := s.falling_piece.position.add Direction.DOWN.value }
  if p.is_colliding s.board then
    let p' := { p with position := p.position.add Direction.UP.value }
    let s1 := Game.place_piece { s with falling_piece := p' } p'
    let r := Game.spawn_piece s1
    Game.update_ghost_piece { r.2 with falling_piece := r.1 }
  else { s with falling_piece := p }

/-- The `move` action: translate by the unit vector, reverting on collision. -/
def Game.move_action (s : GameState) (d : Direction) : GameState :=
  let p := { s.falling_piece with position := s.falling_piece.position.add d.value }
  if p.is_colliding s.board then
    { s with falling_piece := { p with position := p.position.add d.get_opposite.value } }
  else { s with falling_piece := p }

/-- The `drop` action: hard-drop the falling piece, place it, then spawn a
replacement. -/
def Game.drop_action (s : GameState) : GameState :=
  let p := s.falling_piece.dropPiece s.board
  let s1 := Game.place_piece { s with falling_piece := p } p
  let r := Game.spawn_piece s1
  { r.2 with falling_piece := r.1 }

/-- `move_piece(direction, distance)`: move `distance` single steps. -/
def movePieceBy (pos : Pos) (dir : Pos) (distance : ℕ) : Pos :=
  (List.range distance).foldl (fun q _ => q.add dir) pos

/-- The inner wall-kick probe for one direction: try distances 1, 2, 3 in
order; on the first non-colliding distance record it and restore the
position, otherwise restore and continue. Returns the final (restored)
position and the recorded distance, if any. -/
def probeDistances (b : Board) (p : PieceS) (dir : Direction) :
    List ℕ → Pos → Pos × Option ℕ
  | [], pos => (pos, none)
  | k :: ks, pos =>
    let pos' := movePieceBy pos dir.value k
    if !({ p with position := pos' } : PieceS).is_colliding b then
      (movePieceBy pos' dir.get_opposite.value k, some k)
    else probeDistances b p dir ks (movePieceBy pos' dir.get_opposite.value k)

/-- The outer wall-kick loop: probe every direction in enumeration order,
threading the piece position and building the `distance_needed` dictionary
in insertion order. -/
def probeLoop (b : Board) (p : PieceS) : Pos × List (Direction × ℕ) :=
  directionList.foldl
    (fun acc dir =>
      let r := probeDistances b p dir [1, 2, 3] acc.1
      (r.1, acc.2 ++ (match r.2 with
        | some k => [(dir, k)]
        | none => [])))
    (p.position, [])

/-- `min(distance_needed, key=distance_needed.get)`: the first key attaining
the minimal value, in dictionary insertion order. -/
def selectMin : List (Direction × ℕ) → Option (Direction × ℕ)
  | [] => none
  | x :: xs => some (xs.foldl (fun best y => if y.2 < best.2 then y else best) x)

/-- The resolving distance of one direction, functionally: the first
distance among 1, 2, 3 whose translation removes the collision. -/
def probeSpec (b : Board) (p : PieceS) (dir : Direction) : Option ℕ :=
  [1, 2, 3].find? fun k =>
    !({ p with position := movePieceBy p.position dir.value k } : PieceS).is_colliding b

/-- The falling piece with the intended rotation applied (clockwise exactly
when the argument is RIGHT), before any collision response. -/
def rotatedPiece (s : GameState) (d : Direction) : PieceS :=
  { s.falling_piece with
    rotation := s.falling_piece.rotation.rotate (d == Direction.RIGHT) }

/-- The `rotate` action: apply the intended rotation; if the result
collides, run the wall-kick probes and either apply the shortest recorded
escape or revert the rotation. -/
def Game.rotate_action (s : GameState) (d : Direction) : GameState :=
  let p1 := rotatedPiece s d
  if p1.is_colliding s.board then
    let r := probeLoop s.board p1
    match selectMin r.2 with
    | some dk => { s with falling_piece := { p1 with position := movePieceBy r.1 dk.1.value dk.2 } }
    | none => { s with falling_piece := { p1 with rotation := p1.rotation.rotate (d == Direction.LEFT) } }
  else { s with falling_piece := p1 }

/-- The five bound actions of `key_actions`. -/
inductive GameAction
  | rotateA (d : Direction)
  | moveA (d : Direction)
  | dropA
deriving DecidableEq, Repr

/-- Dispatch one bound action. -/
def applyAction (s : GameState) : GameAction → GameState
  | .rotateA d => Game.rotate_action s d
  | .moveA d => Game.move_action s d
  | .dropA => Game.drop_action s

/-- Key codes for the five bound keys (opaque `arcade.key` constants; only
their distinctness matters). -/
def KEY_UP : ℕ := 0

/-- Key code for the DOWN arrow. -/
def KEY_DOWN : ℕ := 1

/-- Key code for the LEFT arrow. -/
def KEY_LEFT : ℕ := 2

/-- Key code for the RIGHT arrow. -/
def KEY_RIGHT : ℕ := 3

/-- Key code for the space bar. -/
def KEY_SPACE : ℕ := 4

/-- The `key_actions` dictionary, in insertion order:
key ↦ (action, repeat-after delay; `none` marks a non-repeatable action). -/
def key_actions : List (ℕ × GameAction × Option ℚ) :=
  [(KEY_UP, .rotateA .RIGHT, none),
   (KEY_DOWN, .rotateA .LEFT, none),
   (KEY_LEFT, .moveA .LEFT, some (13 / 100)),
   (KEY_RIGHT, .moveA .RIGHT, some (13 / 100)),
   (KEY_SPACE, .dropA, none)]

/-- `repeat_delays.get(key, default)` on the association-list model of the
dictionary (`none` as a stored value models Python's stored `None`). -/
def dictGet (l : List (ℕ × Option ℚ)) (k : ℕ) : Option (Option ℚ) :=
  (l.find? (fun kv => kv.1 == k)).map (fun kv => kv.2)

/-- `repeat_delays[key] = v`. -/
def dictSet (l : List (ℕ × Option ℚ)) (k : ℕ) (v : Option ℚ) : List (ℕ × Option ℚ) :=
  if l.any (fun kv => kv.1 == k) then l.map (fun kv => if kv.1 == k then (k, v) else kv)
  else l ++ [(k, v)]

/-- One iteration of the `key_actions` dispatch loop. A held key fires when
it was just pressed, or — for repeatable actions only — when its delay has
run out; firing runs the action, recomputes the ghost and stores the
repeat-after value, otherwise the delay is decremented (never below 0).
The fired keys are accumulated for observation; the loop's first
`delay` read is shadowed dead code in the source and is omitted. -/
def processKey (dt : ℚ) (acc : GameState × List ℕ) (entry : ℕ × GameAction × Option ℚ) :
    GameState × List ℕ :=
  let s := acc.1
  let key := entry.1
  let repeat_after := entry.2.2
  if s.keys.contains key then
    let delay := (dictGet s.repeat_delays key).getD (some 0)
    if !(s.last_keys.contains key) || (repeat_after.isSome && decide (delay.getD 0 ≤ 0)) then
      let s1 := applyAction s entry.2.1
      let s2 := Game.update_ghost_piece s1
      ({ s2 with repeat_delays := dictSet s2.repeat_delays key repeat_after }, acc.2 ++ [key])
    else
      let newDelay : Option ℚ := match delay with
        | some v => some (max 0 (v - dt))
        | none => some 0
      ({ s with repeat_delays := dictSet s.repeat_delays key newDelay }, acc.2)
  else acc

/-- The firing condition of one dispatch iteration, functionally: the key
is held, and it was either just pressed or — for repeatable actions only —
its delay has run out. -/
def fireCondB (s : GameState) (e : ℕ × GameAction × Option ℚ) : Bool :=
  s.keys.contains e.1 &&
    (!(s.last_keys.contains e.1) ||
      (e.2.2.isSome && decide ((((dictGet s.repeat_delays e.1).getD (some 0)).getD 0) ≤ 0)))

/-- `Game.on_update`: early-return when the game is over; otherwise apply
gravity (resetting the timer from the possibly-updated interval), run the
dispatch loop over `key_actions`, and store this frame's keys as
`last_keys`. Also returns the list of keys whose actions fired this tick. -/
def Game.on_update (s : GameState) (time_delta : ℚ) : GameState × List ℕ :=
  if s.game_over then (s, [])
  else
    let s1 := if s.fall_timer ≤ 0 then
        let sf := Game.fall s
        { sf with fall_timer := sf.fall_interval }
      else { s with fall_timer := s.fall_timer - time_delta }
    let r := key_actions.foldl (processKey time_delta) (s1, [])
    ({ r.1 with last_keys := r.1.keys }, r.2)

/-- One frame: the key events since the previous frame leave the `keys` set
at `ks`, then `on_update` runs. -/
def tickWith (s : GameState) (ks : List ℕ) (dt : ℚ) : GameState × List ℕ :=
  Game.on_update { s with keys := ks } dt

/-- The per-tick fired-key lists along a run of frames. -/
def firedTrace (s : GameState) : List (List ℕ × ℚ) → List (List ℕ)
  | [] => []
  | (ks, dt) :: rest =>
    let r := tickWith s ks dt
    r.2 :: firedTrace r.1 rest

/-- The 10 × 20 board of a fresh session. -/
def initialBoard : Board := ⟨10, 20, List.replicate 20 (List.replicate 10 Cell.empty)⟩

/-- The board-evolution part of `Game.clear_rows`. -/
def boardClear (b : Board) : Board :=
  (sortedRev b.get_clearable_rows).foldl Board.clear_row b

/-- The boards reachable from a fresh session. The session writes to the
board only by placing the falling piece — always one of the 7 templates,
always at a non-colliding pose — and runs `Game.clear_rows` immediately
after every placement. -/
inductive ReachableBoard : Board → Prop
  | init : ReachableBoard initialBoard
  | step (b : Board) (p : PieceS) : ReachableBoard b → p.tetromino ∈ tetrominoList →
      p.is_colliding b = false → ReachableBoard (boardClear (p.placeOnBoard b))

/-- The fall-interval recomputation formula as the spec states it:
`max(base_interval - floor(score / threshold) * step, min_interval)`
with base 1, threshold 1000, step 1/20 and floor 3/10. -/
def fallIntervalFor (score : ℕ) : ℚ :=
  max (1 - ((score / fall_increase_threshold : ℕ) : ℚ) * fall_increase_rate) min_fall_interval

/-- Witness fixture: a session state over a given board, one `I` queued. -/
def fixtureState (b : Board) : GameState where
  board := b
  score := 0
  lines := 0
  fall_interval := 1
  fall_timer := 100
  game_over := false
  falling_piece := ⟨tetI, ⟨0, 5⟩, .UP, false⟩
  ghost_piece := ⟨tetI, ⟨0, 5⟩, .UP, true⟩
  keys := []
  last_keys := []
  repeat_delays := []
  spawn_queue := [tetI]

/-- Witness fixture: a row with every cell occupied. -/
def fullRow : List Cell := List.replicate 10 (Cell.filled (200, 200, 200))

/-- Witness fixture: a board with every cell occupied. -/
def fullBoard : Board := ⟨10, 20, List.replicate 20 fullRow⟩

/-- Witness fixture: an empty row of width 10. -/
def emptyRow10 : List Cell := List.replicate 10 Cell.empty

/-- Witness fixture: a board whose rows 0 and 2 are full. -/
def twoFullBoard : Board :=
  ⟨10, 20, fullRow :: emptyRow10 :: fullRow :: List.replicate 17 emptyRow10⟩

/-- C2: for every one of the 7 tetromino templates and every orientation,
the rotated shape matrix (in both `tetris.py` and `tetris_dev.py`) equals
the spec's four-case table: identity for UP; rows reversed then each row
reversed for DOWN; rows reversed then transposed for RIGHT; transposed then
rows reversed for LEFT. -/
theorem claim2_rotated_shape_table : ∀ t ∈ tetrominoList, ∀ r : Direction,
    t.rotate r = specRotatedShape t.shape r ∧
    devRotatedShape t.shape r = specRotatedShape t.shape r := by decide

/-- Witness for C2 at the `I` template rotated RIGHT. -/
theorem claim2_witness : tetI ∈ tetrominoList ∧
    (tetI.rotate .RIGHT = specRotatedShape tetI.shape .RIGHT ∧
      devRotatedShape tetI.shape .RIGHT = specRotatedShape tetI.shape .RIGHT) :=
  ⟨by decide, claim2_rotated_shape_table tetI (by decide) .RIGHT⟩

/-- C3 counterexample: the `O` template is one of the 7 canonical templates
yet its shape matrix contains zero anchor-tagged cells, not exactly one. -/
theorem claim3_counterexample : tetO ∈ tetrominoList ∧
    anchorCount (tetO.rotate .UP) = 0 := by decide

/-- C3 amended: six of the 7 templates (I, J, L, S, T, Z) contain exactly
one anchor-tagged cell in every orientation; the `O` template contains
none, so its origin lookup falls through to the `(0, 0)` default — which is
harmless because every rotation of `O` equals its base matrix. -/
theorem claim3_amended :
    (∀ t ∈ [tetI, tetJ, tetL, tetS, tetT, tetZ], ∀ r : Direction,
      anchorCount (t.rotate r) = 1) ∧
    (∀ r : Direction, anchorCount (tetO.rotate r) = 0 ∧
      tetO.get_origin r = ⟨0, 0⟩ ∧ tetO.rotate r = tetO.shape) := by decide

/-- Witness for the amended C3 at the `I` template rotated UP. -/
theorem claim3_witness : tetI ∈ [tetI, tetJ, tetL, tetS, tetT, tetZ] ∧
    anchorCount (tetI.rotate .UP) = 1 :=
  ⟨by decide, claim3_amended.1 tetI (by decide) .UP⟩

/-- C7: `Direction.rotate` iterated four times with the same clockwise
argument is the identity, and hence rotating a piece's orientation four
times in the same rotational direction reproduces the exact original shape
matrix and anchor offset for every template and starting orientation. -/
theorem claim7_rotation_cycle :
    (∀ d : Direction, ∀ c : Bool, (((d.rotate c).rotate c).rotate c).rotate c = d) ∧
    ∀ t ∈ tetrominoList, ∀ r : Direction, ∀ c : Bool,
      t.rotate ((((r.rotate c).rotate c).rotate c).rotate c) = t.rotate r ∧
      t.get_origin ((((r.rotate c).rotate c).rotate c).rotate c) = t.get_origin r := by
  decide

/-- Witness for C7 at the `S` template, orientation RIGHT, clockwise. -/
theorem claim7_witness : tetS ∈ tetrominoList ∧
    (tetS.rotate ((((Direction.RIGHT.rotate true).rotate true).rotate true).rotate true) =
        tetS.rotate .RIGHT ∧
      tetS.get_origin ((((Direction.RIGHT.rotate true).rotate true).rotate true).rotate true) =
        tetS.get_origin .RIGHT) :=
  ⟨by decide, claim7_rotation_cycle.2 tetS (by decide) .RIGHT true⟩

/-- C8: when the newly spawned piece collides with the board, the game-over
flag is set, the piece object is still returned (its construction does not
depend on the collision outcome, so it remains available for rendering),
and every subsequent tick returns immediately: with the flag set,
`on_update` leaves the state unchanged (apart from the externally recorded
key set) and fires no gravity step and no input action. The model is total,
so no exception is involved. -/
theorem claim8_spawn_blocked (s : GameState)
    (h : (Game.spawn_piece s).1.is_colliding s.board = true) :
    (Game.spawn_piece s).2.game_over = true ∧
    (Game.spawn_piece s).1 =
      (⟨s.spawn_queue.headD tetI,
        ⟨((s.board.width / 2 : ℕ) : ℤ),
          (s.board.height : ℤ) -
            (((s.spawn_queue.headD tetI).shape.length : ℤ) -
              ((s.spawn_queue.headD tetI).get_origin .UP).y)⟩,
        .UP, false⟩ : PieceS) ∧
    (∀ (s' : GameState) (ks : List ℕ) (dt : ℚ), s'.game_over = true →
      tickWith s' ks dt = ({ s' with keys := ks }, [])) := by
  refine ⟨?_, rfl, ?_⟩
  · simp only [Game.spawn_piece] at h ⊢
    rw [h]
    rfl
  · intro s' ks dt h'
    simp [tickWith, Game.on_update, h']

/-- Witness for C8: spawning onto a fully occupied board. -/
theorem claim8_witness :
    (Game.spawn_piece (fixtureState fullBoard)).1.is_colliding (fixtureState fullBoard).board =
        true ∧
      (Game.spawn_piece (fixtureState fullBoard)).2.game_over = true ∧
      tickWith (Game.spawn_piece (fixtureState fullBoard)).2 [KEY_SPACE] 1 =
        ({ (Game.spawn_piece (fixtureState fullBoard)).2 with keys := [KEY_SPACE] }, []) :=
  ⟨by decide, (claim8_spawn_blocked (fixtureState fullBoard) (by decide)).1,
    (claim8_spawn_blocked (fixtureState fullBoard) (by decide)).2.2
      (Game.spawn_piece (fixtureState fullBoard)).2 [KEY_SPACE] 1
      (claim8_spawn_blocked (fixtureState fullBoard) (by decide)).1⟩

/-- The lines counter threaded through the clear loop increases once per
processed row index. -/
theorem clearLoop_lines (l : List ℕ) (b : Board) (m : ℕ) :
    (l.foldl (fun (p : Board × ℕ) row => (p.1.clear_row row, p.2 + 1)) (b, m)).2 =
      m + l.length := by
  induction l generalizing b m with
  | nil => rfl
  | cons a l ih =>
    simp only [List.foldl_cons, List.length_cons, ih]
    omega

/-- The board threaded through the clear loop is the plain fold of
`Board.clear_row`. -/
theorem clearLoop_board (l : List ℕ) (b : Board) (m : ℕ) :
    (l.foldl (fun (p : Board × ℕ) row => (p.1.clear_row row, p.2 + 1)) (b, m)).1 =
      l.foldl Board.clear_row b := by
  induction l generalizing b m with
  | nil => rfl
  | cons a l ih => simp only [List.foldl_cons, ih]

/-- `sortedRev` preserves length. -/
theorem length_sortedRev (l : List ℕ) : (sortedRev l).length = l.length := by
  simp [sortedRev, List.length_insertionSort]

/-- C5: a lock that clears N rows (N in 1..4, so that the reward dictionary
carries an entry `r` for N) increases the score by exactly `r` and the
lines counter by exactly N; the single-row reward is 100, the four-row
(tetris) reward is 800, and 800 is strictly greater than 4 × 100. -/
theorem claim5_scoring (s : GameState) (n r : ℕ)
    (hn : s.board.get_clearable_rows.length = n)
    (hr : score_rewards n = some r) :
    (Game.clear_rows s).score = s.score + r ∧
    (Game.clear_rows s).lines = s.lines + n ∧
    score_rewards 1 = some 100 ∧ score_rewards 4 = some 800 ∧ 4 * 100 < 800 := by
  have hn0 : n ≠ 0 := by
    rintro rfl
    simp [score_rewards] at hr
  refine ⟨?_, ?_, rfl, rfl, by norm_num⟩
  · simp only [Game.clear_rows, hn, hn0, if_true, ne_eq, not_false_iff, hr, Option.getD_some]
  · simp only [Game.clear_rows, clearLoop_lines, length_sortedRev, hn]

/-- Witness for C5: clearing one full bottom row from a fresh-score state. -/
theorem claim5_witness :
    ((fixtureState ⟨10, 20, fullRow :: List.replicate 19 (List.replicate 10 Cell.empty)⟩)
          |>.board.get_clearable_rows.length) = 1 ∧
      score_rewards 1 = some 100 ∧
      (Game.clear_rows (fixtureState
          ⟨10, 20, fullRow :: List.replicate 19 (List.replicate 10 Cell.empty)⟩)).score =
        (fixtureState ⟨10, 20, fullRow :: List.replicate 19 (List.replicate 10 Cell.empty)⟩).score
          + 100 ∧
      (Game.clear_rows (fixtureState
          ⟨10, 20, fullRow :: List.replicate 19 (List.replicate 10 Cell.empty)⟩)).lines =
        (fixtureState ⟨10, 20, fullRow :: List.replicate 19 (List.replicate 10 Cell.empty)⟩).lines
          + 1 :=
  ⟨by decide, by decide,
    (claim5_scoring _ 1 100 (by decide) (by decide)).1,
    (claim5_scoring _ 1 100 (by decide) (by decide)).2.1⟩

/-- C6: every recomputation sets the fall interval to
`max(1 - floor(score / 1000) * (1/20), 3/10)` evaluated at the updated
score; that formula is monotonically non-increasing in the score and never
drops below the configured minimum. -/
theorem claim6_fall_interval (s : GameState) :
    (Game.clear_rows s).fall_interval = fallIntervalFor (Game.clear_rows s).score ∧
    (∀ s1 s2 : ℕ, s1 ≤ s2 → fallIntervalFor s2 ≤ fallIntervalFor s1) ∧
    (∀ sc : ℕ, min_fall_interval ≤ fallIntervalFor sc) := by
  refine ⟨rfl, ?_, fun sc => le_max_right _ _⟩
  intro s1 s2 h
  have hdiv : s1 / fall_increase_threshold ≤ s2 / fall_increase_threshold :=
    Nat.div_le_div_right h
  have hrate : (0 : ℚ) ≤ fall_increase_rate := by norm_num [fall_increase_rate]
  exact max_le_max
    (sub_le_sub_left (mul_le_mul_of_nonneg_right (by exact_mod_cast hdiv) hrate) 1)
    le_rfl

/-- Witness for C6 at a fresh session state and scores 1500 ≤ 2500. -/
theorem claim6_witness :
    (Game.clear_rows (fixtureState initialBoard)).fall_interval =
        fallIntervalFor (Game.clear_rows (fixtureState initialBoard)).score ∧
      (1500 ≤ 2500 ∧ fallIntervalFor 2500 ≤ fallIntervalFor 1500) ∧
      min_fall_interval ≤ fallIntervalFor 99999 :=
  ⟨(claim6_fall_interval (fixtureState initialBoard)).1,
    ⟨by decide, (claim6_fall_interval (fixtureState initialBoard)).2.1 1500 2500 (by decide)⟩,
    (claim6_fall_interval (fixtureState initialBoard)).2.2 99999⟩

/-- The head of a nonempty list of rows of uniform width has that width. -/
theorem headD_length_of_widths {cs : List (List Cell)} {w : ℕ}
    (h : ∀ row ∈ cs, row.length = w) (hne : cs ≠ []) : (cs.headD []).length = w := by
  cases cs with
  | nil => exact absurd rfl hne
  | cons a t => exact h a (List.mem_cons_self a t)

/-- Membership in the clearable-row scan: exactly the offsets of full rows. -/
theorem clearableAux_mem (cells : List (List Cell)) : ∀ (n i : ℕ),
    i ∈ clearableAux n cells ↔
      ∃ j, j < cells.length ∧ i = n + j ∧ rowFull (cells.getD j []) = true := by
  induction cells with
  | nil => intro n i; simp [clearableAux]
  | cons row rest ih =>
    intro n i
    simp only [clearableAux, List.mem_append]
    constructor
    · intro h
      rcases h with h | h
      · by_cases hf : rowFull row
        · simp only [hf, if_true, List.mem_singleton] at h
          exact ⟨0, by simp, by omega, by simpa [h] using hf⟩
        · simp [hf] at h
      · rcases (ih (n + 1) i).mp h with ⟨j, hj, hij, hfull⟩
        exact ⟨j + 1, by simpa using hj, by omega, by simpa using hfull⟩
    · rintro ⟨j, hj, rfl, hfull⟩
      cases j with
      | zero =>
        left
        simp only [List.getD_cons_zero] at hfull
        simp [hfull]
      | succ j =>
        right
        refine (ih (n + 1) (n + (j + 1))).mpr ⟨j, by simpa using hj, by omega, ?_⟩
        simpa using hfull

/-- The clearable-row scan yields strictly ascending indices. -/
theorem clearableAux_pairwise (cells : List (List Cell)) : ∀ n : ℕ,
    List.Pairwise (· < ·) (clearableAux n cells) := by
  induction cells with
  | nil => intro n; simp [clearableAux]
  | cons row rest ih =>
    intro n
    by_cases hf : rowFull row <;> simp only [clearableAux, hf, if_true, if_false,
      List.nil_append, List.singleton_append]
    · refine List.Pairwise.cons ?_ (ih (n + 1))
      intro i hi
      rcases (clearableAux_mem rest (n + 1) i).mp hi with ⟨j, _, hij, _⟩
      omega
    · exact ih (n + 1)

/-- The clearable-row scan counts the full rows. -/
theorem clearableAux_length (cells : List (List Cell)) : ∀ n : ℕ,
    (clearableAux n cells).length = cells.countP rowFull := by
  induction cells with
  | nil => intro n; rfl
  | cons row rest ih =>
    intro n
    by_cases hf : rowFull row <;>
      simp [clearableAux, hf, List.countP_cons, ih]

/-- Python's `sorted(…, reverse=True)` on an already strictly ascending
list is its reverse. -/
theorem sortedRev_eq_reverse {l : List ℕ} (h : List.Pairwise (· < ·) l) :
    sortedRev l = l.reverse := by
  unfold sortedRev
  rw [List.Sorted.insertionSort_eq (h.imp le_of_lt)]

/-- Structure of the descending clear fold: erasing each index from the
original prefix while one fresh empty row per step accumulates at the end. -/
theorem foldl_clearRowCells_desc (rs : List ℕ) :
    ∀ (cells tail : List (List Cell)) (w : ℕ), 0 < w →
      List.Pairwise (· > ·) rs → (∀ i ∈ rs, i < cells.length) →
      (∀ row ∈ cells, row.length = w) → (∀ row ∈ tail, row.length = w) →
      2 ≤ cells.length + tail.length →
      rs.foldl clearRowCells (cells ++ tail) =
        rs.foldl List.eraseIdx cells ++ tail ++
          List.replicate rs.length (List.replicate w Cell.empty) := by
  induction rs with
  | nil => intro cells tail w _ _ _ _ _ _; simp
  | cons r rs ih =>
    intro cells tail w hw hdesc hbound hcw htw htot
    have hr : r < cells.length := hbound r (List.mem_cons_self r rs)
    have hgt : ∀ i ∈ rs, i < r := fun i hi => List.rel_of_pairwise_cons hdesc hi
    have hElen : (cells.eraseIdx r).length = cells.length - 1 :=
      List.length_eraseIdx_of_lt hr
    have hwidths : ∀ row ∈ cells.eraseIdx r, row.length = w := fun row hrow =>
      hcw row ((List.eraseIdx_sublist cells r).subset hrow)
    have hne : cells.eraseIdx r ++ tail ≠ [] := by
      intro hcontra
      have := congrArg List.length hcontra
      simp only [List.length_append, hElen, List.length_nil] at this
      omega
    have hhead : ((cells.eraseIdx r ++ tail).headD []).length = w := by
      refine headD_length_of_widths ?_ hne
      intro row hrow
      rcases List.mem_append.mp hrow with h | h
      exacts [hwidths row h, htw row h]
    have hstep : clearRowCells (cells ++ tail) r =
        cells.eraseIdx r ++ (tail ++ [List.replicate w Cell.empty]) := by
      simp only [clearRowCells, List.eraseIdx_append_of_lt_length hr, hhead,
        List.append_assoc]
    rw [List.foldl_cons, hstep, List.foldl_cons,
      ih (cells.eraseIdx r) (tail ++ [List.replicate w Cell.empty]) w hw hdesc.of_cons
        (by intro i hi; have := hgt i hi; omega)
        hwidths
        (by intro row hrow
            rcases List.mem_append.mp hrow with h | h
            · exact htw row h
            · simp only [List.mem_singleton] at h
              simp [h])
        (by simp only [List.length_append, List.length_singleton, hElen]; omega)]
    simp [List.append_assoc, List.replicate_succ]

/-- Semantics of the descending erase fold: when the erased indices are
exactly the indices of full rows, the fold keeps precisely the non-full
rows, in order. -/
theorem foldl_eraseIdx_filter (rs : List ℕ) :
    ∀ cells : List (List Cell),
      List.Pairwise (· > ·) rs → (∀ i ∈ rs, i < cells.length) →
      (∀ (i : ℕ) (row : List Cell), cells[i]? = some row →
        (i ∈ rs ↔ rowFull row = true)) →
      rs.foldl List.eraseIdx cells = cells.filter (fun row => !(rowFull row)) := by
  induction rs with
  | nil =>
    intro cells _ _ hmem
    refine (List.filter_eq_self.mpr ?_).symm
    intro row hrow
    rcases List.mem_iff_getElem?.mp hrow with ⟨i, hi⟩
    have := (hmem i row hi).symm
    simp only [List.not_mem_nil, iff_false] at this
    simp [this]
  | cons r rs ih =>
    intro cells hdesc hbound hmem
    have hr : r < cells.length := hbound r (List.mem_cons_self r rs)
    have hgt : ∀ i ∈ rs, i < r := fun i hi => List.rel_of_pairwise_cons hdesc hi
    have hfull_r : rowFull cells[r] = true :=
      (hmem r cells[r] (List.getElem?_eq_getElem hr)).mp (List.mem_cons_self r rs)
    rw [List.foldl_cons]
    rw [ih (cells.eraseIdx r) hdesc.of_cons
      (by intro i hi
          have := hgt i hi
          rw [List.length_eraseIdx_of_lt hr]
          omega)
      (by intro i row hrow
          rcases Nat.lt_or_ge i r with hir | hir
          · rw [List.getElem?_eraseIdx_of_lt cells r i hir] at hrow
            have h2 := hmem i row hrow
            simp only [List.mem_cons] at h2
            constructor
            · intro hi; exact h2.mp (Or.inr hi)
            · intro hf
              rcases h2.mpr hf with h | h
              · omega
              · exact h
          · rw [List.getElem?_eraseIdx_of_ge cells r i hir] at hrow
            have h2 := hmem (i + 1) row hrow
            simp only [List.mem_cons] at h2
            have hnot : ¬(i + 1 = r ∨ i + 1 ∈ rs) := by
              rintro (h | h)
              · omega
              · have := hgt _ h; omega
            have hrow_not : rowFull row = false := by
              rcases Bool.eq_false_or_eq_true (rowFull row) with h | h
              · exact absurd (h2.mpr h) hnot
              · exact h
            constructor
            · intro hi; exact absurd (hgt i hi) (by omega)
            · intro hf; rw [hrow_not] at hf; exact absurd hf (by simp))]
    rw [List.eraseIdx_eq_take_drop_succ, List.filter_append]
    conv_rhs => rw [← List.take_append_drop r cells,
      List.drop_eq_getElem_cons hr, List.filter_append, List.filter_cons]
    simp [hfull_r]

/-- Folding `Board.clear_row` only rewrites the cell grid. -/
theorem foldl_clear_row_cells (rs : List ℕ) : ∀ b : Board,
    rs.foldl Board.clear_row b = { b with cells := rs.foldl clearRowCells b.cells } := by
  induction rs with
  | nil => intro b; rfl
  | cons r rs ih => intro b; rw [List.foldl_cons, List.foldl_cons, ih]; rfl

/-- Counting: the kept (non-full) rows plus the full rows make up the board. -/
theorem filter_not_full_length (l : List (List Cell)) :
    (l.filter (fun row => !(rowFull row))).length + l.countP rowFull = l.length := by
  induction l with
  | nil => rfl
  | cons r t ih =>
    by_cases h : rowFull r <;>
      simp [List.filter_cons, h, List.countP_cons, ← ih] <;> omega

/-- C4: clearing the full rows (processed from highest index to lowest, as
the descending pairwise conjunct records) keeps exactly the non-full rows
in their original relative order and appends one fresh empty row per
cleared row at the top; the row count and every row width are unchanged,
and the cleared indices are precisely indices of full rows. -/
theorem claim4_clear_rows (s : GameState) (w : ℕ) (hw : 0 < w)
    (hcw : ∀ row ∈ s.board.cells, row.length = w)
    (hh : 2 ≤ s.board.cells.length) :
    (Game.clear_rows s).board.cells =
        s.board.cells.filter (fun row => !(rowFull row)) ++
          List.replicate s.board.get_clearable_rows.length (List.replicate w Cell.empty) ∧
      (Game.clear_rows s).board.cells.length = s.board.cells.length ∧
      (∀ row ∈ (Game.clear_rows s).board.cells, row.length = w) ∧
      (∀ i ∈ s.board.get_clearable_rows, i < s.board.cells.length ∧
        rowFull (s.board.cells.getD i []) = true) ∧
      List.Pairwise (· > ·) (sortedRev s.board.get_clearable_rows) := by
  have hpair : List.Pairwise (· < ·) (clearableAux 0 s.board.cells) :=
    clearableAux_pairwise s.board.cells 0
  have hrev : sortedRev (clearableAux 0 s.board.cells) =
      (clearableAux 0 s.board.cells).reverse := sortedRev_eq_reverse hpair
  have hmem0 : ∀ i ∈ clearableAux 0 s.board.cells,
      i < s.board.cells.length ∧ rowFull (s.board.cells.getD i []) = true := by
    intro i hi
    rcases (clearableAux_mem s.board.cells 0 i).mp hi with ⟨j, hj, hij, hfull⟩
    subst hij
    exact ⟨by omega, by simpa using hfull⟩
  have hpairg : List.Pairwise (· > ·) (clearableAux 0 s.board.cells).reverse := by
    rw [List.pairwise_reverse]
    exact hpair
  have hbound : ∀ i ∈ (clearableAux 0 s.board.cells).reverse, i < s.board.cells.length := by
    intro i hi
    exact (hmem0 i (List.mem_reverse.mp hi)).1
  have hmem' : ∀ (i : ℕ) (row : List Cell), s.board.cells[i]? = some row →
      (i ∈ (clearableAux 0 s.board.cells).reverse ↔ rowFull row = true) := by
    intro i row hrow
    have hi : i < s.board.cells.length := by
      rcases List.getElem?_eq_some_iff.mp hrow with ⟨h, _⟩
      exact h
    have hgetD : s.board.cells.getD i [] = row := by
      rw [List.getD_eq_getElem?_getD, hrow]
      rfl
    rw [List.mem_reverse, clearableAux_mem]
    constructor
    · rintro ⟨j, hj, hij, hfull⟩
      rw [← hgetD]
      subst hij
      simpa using hfull
    · intro hfull
      exact ⟨i, hi, by omega, by rw [hgetD]; exact hfull⟩
  have hboard : (Game.clear_rows s).board =
      (sortedRev s.board.get_clearable_rows).foldl Board.clear_row s.board :=
    clearLoop_board _ _ _
  have hcells : (Game.clear_rows s).board.cells =
      s.board.cells.filter (fun row => !(rowFull row)) ++
        List.replicate s.board.get_clearable_rows.length (List.replicate w Cell.empty) := by
    rw [hboard, foldl_clear_row_cells]
    show (sortedRev s.board.get_clearable_rows).foldl clearRowCells s.board.cells = _
    have hfold := foldl_clearRowCells_desc (clearableAux 0 s.board.cells).reverse
      s.board.cells [] w hw hpairg hbound hcw (by intro row h; simp at h)
      (by simpa using hh)
    rw [List.append_nil] at hfold
    show (sortedRev (clearableAux 0 s.board.cells)).foldl clearRowCells s.board.cells = _
    rw [hrev, hfold,
      foldl_eraseIdx_filter (clearableAux 0 s.board.cells).reverse s.board.cells
        hpairg hbound hmem', List.append_nil]
    show _ = _ ++ List.replicate (clearableAux 0 s.board.cells).length _
    rw [List.length_reverse]
  refine ⟨hcells, ?_, ?_, hmem0, ?_⟩
  · rw [hcells]
    show (_ ++ List.replicate (clearableAux 0 s.board.cells).length _).length = _
    rw [List.length_append, List.length_replicate, clearableAux_length]
    exact filter_not_full_length s.board.cells
  · intro row hrow
    rw [hcells] at hrow
    rcases List.mem_append.mp hrow with h | h
    · exact hcw row (List.mem_of_mem_filter h)
    · rcases List.eq_of_mem_replicate h with rfl
      exact List.length_replicate w Cell.empty
  · show List.Pairwise (· > ·) (sortedRev (clearableAux 0 s.board.cells))
    rw [hrev]
    exact hpairg

/-- Witness for C4: a 10 × 20 board whose rows 0 and 2 are full clears to
the 18 remaining rows in order followed by two fresh empty rows on top. -/
theorem claim4_witness :
    (0 : ℕ) < 10 ∧
      (∀ row ∈ (fixtureState twoFullBoard).board.cells, row.length = 10) ∧
      2 ≤ (fixtureState twoFullBoard).board.cells.length ∧
      (Game.clear_rows (fixtureState twoFullBoard)).board.cells =
        (fixtureState twoFullBoard).board.cells.filter (fun row => !(rowFull row)) ++
          List.replicate (fixtureState twoFullBoard).board.get_clearable_rows.length
            (List.replicate 10 Cell.empty) :=
  ⟨by decide, by decide, by decide,
    (claim4_clear_rows (fixtureState twoFullBoard) 10 (by decide) (by decide) (by decide)).1⟩

/-- The cell-grid characterisation of `boardClear` (the board part of
`Game.clear_rows`): the non-full rows in order, then one fresh empty row
per cleared row; row count and widths are unchanged. -/
theorem boardClear_cells (b : Board) (w : ℕ) (hw : 0 < w)
    (hcw : ∀ row ∈ b.cells, row.length = w) (hh : 2 ≤ b.cells.length) :
    (boardClear b).cells =
        b.cells.filter (fun row => !(rowFull row)) ++
          List.replicate b.get_clearable_rows.length (List.replicate w Cell.empty) ∧
      (boardClear b).cells.length = b.cells.length ∧
      (∀ row ∈ (boardClear b).cells, row.length = w) := by
  have hpair : List.Pairwise (· < ·) (clearableAux 0 b.cells) :=
    clearableAux_pairwise b.cells 0
  have hrev : sortedRev (clearableAux 0 b.cells) =
      (clearableAux 0 b.cells).reverse := sortedRev_eq_reverse hpair
  have hpairg : List.Pairwise (· > ·) (clearableAux 0 b.cells).reverse := by
    rw [List.pairwise_reverse]
    exact hpair
  have hbound : ∀ i ∈ (clearableAux 0 b.cells).reverse, i < b.cells.length := by
    intro i hi
    rcases (clearableAux_mem b.cells 0 i).mp (List.mem_reverse.mp hi) with ⟨j, hj, hij, _⟩
    omega
  have hmem' : ∀ (i : ℕ) (row : List Cell), b.cells[i]? = some row →
      (i ∈ (clearableAux 0 b.cells).reverse ↔ rowFull row = true) := by
    intro i row hrow
    have hi : i < b.cells.length := by
      rcases List.getElem?_eq_some_iff.mp hrow with ⟨h, _⟩
      exact h
    have hgetD : b.cells.getD i [] = row := by
      rw [List.getD_eq_getElem?_getD, hrow]
      rfl
    rw [List.mem_reverse, clearableAux_mem]
    constructor
    · rintro ⟨j, hj, hij, hfull⟩
      rw [← hgetD]
      subst hij
      simpa using hfull
    · intro hfull
      exact ⟨i, hi, by omega, by rw [hgetD]; exact hfull⟩
  have hcells : (boardClear b).cells =
      b.cells.filter (fun row => !(rowFull row)) ++
        List.replicate b.get_clearable_rows.length (List.replicate w Cell.empty) := by
    show ((sortedRev b.get_clearable_rows).foldl Board.clear_row b).cells = _
    rw [foldl_clear_row_cells]
    show (sortedRev (clearableAux 0 b.cells)).foldl clearRowCells b.cells = _
    have hfold := foldl_clearRowCells_desc (clearableAux 0 b.cells).reverse
      b.cells [] w hw hpairg hbound hcw (by intro row h; simp at h) (by simpa using hh)
    rw [List.append_nil] at hfold
    rw [hrev, hfold,
      foldl_eraseIdx_filter (clearableAux 0 b.cells).reverse b.cells hpairg hbound hmem',
      List.append_nil]
    show _ = _ ++ List.replicate (clearableAux 0 b.cells).length _
    rw [List.length_reverse]
  refine ⟨hcells, ?_, ?_⟩
  · rw [hcells]
    show (_ ++ List.replicate (clearableAux 0 b.cells).length _).length = _
    rw [List.length_append, List.length_replicate, clearableAux_length]
    exact filter_not_full_length b.cells
  · intro row hrow
    rw [hcells] at hrow
    rcases List.mem_append.mp hrow with h | h
    · exact hcw row (List.mem_of_mem_filter h)
    · rcases List.eq_of_mem_replicate h with rfl
      exact List.length_replicate w Cell.empty

/-- A wide-enough fresh empty row is not full. -/
theorem rowFull_replicate_empty {w : ℕ} (hw : 0 < w) :
    rowFull (List.replicate w Cell.empty) = false := by
  cases w with
  | zero => omega
  | succ n => simp [rowFull, List.replicate_succ]

/-- Overwriting one row changes the number of full rows by at most one. -/
theorem countP_set_le (l : List (List Cell)) :
    ∀ (j : ℕ) (a : List Cell), (l.set j a).countP rowFull ≤ l.countP rowFull + 1 := by
  induction l with
  | nil => intro j a; simp
  | cons hd tl ih =>
    intro j a
    cases j with
    | zero =>
      simp only [List.set_cons_zero, List.countP_cons]
      have h1 : (if rowFull a then 1 else 0) ≤ 1 := by split <;> omega
      have h2 : 0 ≤ (if rowFull hd then 1 else 0) := by omega
      omega
    | succ j =>
      simp only [List.set_cons_succ, List.countP_cons]
      have := ih j a
      omega

/-- A single cell write changes the number of full rows by at most one. -/
theorem countP_setCellB_le (cells : List (List Cell)) (x y : ℤ) (c : Cell) :
    (setCellB cells x y c).countP rowFull ≤ cells.countP rowFull + 1 := by
  unfold setCellB
  split
  · exact countP_set_le cells y.toNat _
  · omega

/-- The placement write loop adds at most one full row per written cell. -/
theorem countP_placeFold_le (ps : List Pos) : ∀ (cells : List (List Cell)) (c : Cell),
    (ps.foldl (fun cs q => setCellB cs q.x q.y c) cells).countP rowFull ≤
      cells.countP rowFull + ps.length := by
  induction ps with
  | nil => intro cells c; simp
  | cons q ps ih =>
    intro cells c
    rw [List.foldl_cons]
    have h1 := ih (setCellB cells q.x q.y c) c
    have h2 := countP_setCellB_le cells q.x q.y c
    simp only [List.length_cons]
    omega

/-- A single cell write preserves the number of rows. -/
theorem length_setCellB (cells : List (List Cell)) (x y : ℤ) (c : Cell) :
    (setCellB cells x y c).length = cells.length := by
  unfold setCellB
  split
  · exact List.length_set cells y.toNat _
  · rfl

/-- A single cell write preserves every row's width. -/
theorem widths_setCellB {w : ℕ} (cells : List (List Cell)) (x y : ℤ) (c : Cell)
    (hcw : ∀ row ∈ cells, row.length = w) :
    ∀ row ∈ setCellB cells x y c, row.length = w := by
  unfold setCellB
  split
  · next hguard =>
    intro row hrow
    rcases List.mem_or_eq_of_mem_set hrow with h | rfl
    · exact hcw row h
    · rw [List.length_set]
      have hy : y.toNat < cells.length := by omega
      have : cells.getD y.toNat [] = cells[y.toNat] := by
        rw [List.getD_eq_getElem?_getD, List.getElem?_eq_getElem hy]
        rfl
      rw [this]
      exact hcw _ (List.getElem_mem hy)
  · exact hcw

/-- The placement write loop preserves the number of rows. -/
theorem length_placeFold (ps : List Pos) : ∀ (cells : List (List Cell)) (c : Cell),
    (ps.foldl (fun cs q => setCellB cs q.x q.y c) cells).length = cells.length := by
  induction ps with
  | nil => intro cells c; rfl
  | cons q ps ih =>
    intro cells c
    rw [List.foldl_cons, ih, length_setCellB]

/-- The placement write loop preserves every row's width. -/
theorem widths_placeFold {w : ℕ} (ps : List Pos) :
    ∀ (cells : List (List Cell)) (c : Cell), (∀ row ∈ cells, row.length = w) →
      ∀ row ∈ ps.foldl (fun cs q => setCellB cs q.x q.y c) cells, row.length = w := by
  induction ps with
  | nil => intro cells c hcw; exact hcw
  | cons q ps ih =>
    intro cells c hcw
    rw [List.foldl_cons]
    exact ih _ c (widths_setCellB cells q.x q.y c hcw)

/-- Every template has exactly 4 non-empty cells in every orientation. -/
theorem relativeCells_four : ∀ t ∈ tetrominoList, ∀ r : Direction,
    (relativeCells (t.rotate r)).length = 4 := by decide

/-- The board invariant along any session: 20 rows of width 10 and no full
row survives a `Game.clear_rows` pass. -/
theorem reachable_inv : ∀ b : Board, ReachableBoard b →
    b.cells.length = 20 ∧ (∀ row ∈ b.cells, row.length = 10) ∧
      b.cells.countP rowFull = 0 := by
  intro b h
  induction h with
  | init => refine ⟨by decide, by decide, by decide⟩
  | step b p hreach htet hcol ih =>
    obtain ⟨hlen, hwid, hzero⟩ := ih
    have hplen : (p.placeOnBoard b).cells.length = 20 := by
      show (p.place_cells.foldl
        (fun cs q => setCellB cs q.x q.y (Cell.filled p.tetromino.color)) b.cells).length = 20
      rw [length_placeFold, hlen]
    have hpwid : ∀ row ∈ (p.placeOnBoard b).cells, row.length = 10 :=
      widths_placeFold p.place_cells b.cells _ hwid
    rcases boardClear_cells (p.placeOnBoard b) 10 (by omega) hpwid (by omega) with
      ⟨hcells, hclen, hcwid⟩
    refine ⟨by rw [hclen, hplen], hcwid, ?_⟩
    rw [hcells, List.countP_append]
    have h1 : (List.filter (fun row => !(rowFull row))
        (p.placeOnBoard b).cells).countP rowFull = 0 := by
      rw [List.countP_eq_zero]
      intro row hrow
      have := List.of_mem_filter hrow
      simp only [Bool.not_eq_true'] at this
      simp [this]
    have h2 : (List.replicate (p.placeOnBoard b).get_clearable_rows.length
        (List.replicate 10 Cell.empty)).countP rowFull = 0 := by
      rw [List.countP_eq_zero]
      intro row hrow
      rcases List.eq_of_mem_replicate hrow with rfl
      rw [rowFull_replicate_empty (by omega : (0:ℕ) < 10)]
      simp
    omega

/-- C10: on every board reachable from a fresh session (placements of the
7 canonical templates, each immediately followed by the row-clear pass) no
row is full; placing one more canonical piece therefore yields between 0
and 4 clearable rows — a piece writes only 4 cells, each raising the full
count by at most one — so the reward dictionary, defined for 1 through 4,
resolves every non-zero lookup the clearing routine performs. -/
theorem claim10_reward_lookup_safe : ∀ b : Board, ReachableBoard b →
    b.cells.countP rowFull = 0 ∧
    ∀ p : PieceS, p.tetromino ∈ tetrominoList → p.is_colliding b = false →
      (p.placeOnBoard b).get_clearable_rows.length ≤ 4 ∧
      ((p.placeOnBoard b).get_clearable_rows.length ≠ 0 →
        (score_rewards (p.placeOnBoard b).get_clearable_rows.length).isSome = true) := by
  intro b hreach
  obtain ⟨hlen, hwid, hzero⟩ := reachable_inv b hreach
  refine ⟨hzero, ?_⟩
  intro p htet hcol
  have hcount : (p.placeOnBoard b).get_clearable_rows.length ≤ 4 := by
    show (clearableAux 0 (p.placeOnBoard b).cells).length ≤ 4
    rw [clearableAux_length]
    show ((p.place_cells).foldl _ b.cells).countP rowFull ≤ 4
    have h1 := countP_placeFold_le p.place_cells b.cells (Cell.filled p.tetromino.color)
    have h2 : p.place_cells.length = 4 := by
      show (List.map _ _).length = 4
      rw [List.length_map]
      exact relativeCells_four p.tetromino htet p.rotation
    omega
  refine ⟨hcount, ?_⟩
  intro hne
  interval_cases h : (p.placeOnBoard b).get_clearable_rows.length <;> simp_all [score_rewards]

/-- Witness for C10: the fresh board with a non-colliding `I` piece. -/
theorem claim10_witness :
    ReachableBoard initialBoard ∧
      (⟨tetI, ⟨0, 5⟩, .UP, false⟩ : PieceS).tetromino ∈ tetrominoList ∧
      (⟨tetI, ⟨0, 5⟩, .UP, false⟩ : PieceS).is_colliding initialBoard = false ∧
      ((⟨tetI, ⟨0, 5⟩, .UP, false⟩ : PieceS).placeOnBoard
          initialBoard).get_clearable_rows.length ≤ 4 :=
  ⟨ReachableBoard.init, by decide, by decide,
    ((claim10_reward_lookup_safe initialBoard ReachableBoard.init).2
      ⟨tetI, ⟨0, 5⟩, .UP, false⟩ (by decide) (by decide)).1⟩

/-- `move_piece` is the affine translation by `distance` unit steps. -/
theorem movePieceBy_eq (pos v : Pos) : ∀ k : ℕ,
    movePieceBy pos v k = ⟨pos.x + k * v.x, pos.y + k * v.y⟩ := by
  intro k
  induction k with
  | zero => simp [movePieceBy]
  | succ k ih =>
    have : movePieceBy pos v (k + 1) = (movePieceBy pos v k).add v := by
      simp [movePieceBy, List.range_succ]
    rw [this, ih, Pos.add]
    simp only [Pos.mk.injEq]
    constructor <;> push_cast <;> ring

/-- The opposite direction's vector is the negation. -/
theorem get_opposite_value (d : Direction) :
    d.get_opposite.value = ⟨-d.value.x, -d.value.y⟩ := by
  cases d <;> rfl

/-- Moving `k` steps one way and `k` steps the opposite way restores the
position. -/
theorem movePieceBy_restore (pos : Pos) (d : Direction) (k : ℕ) :
    movePieceBy (movePieceBy pos d.value k) d.get_opposite.value k = pos := by
  obtain ⟨x, y⟩ := pos
  rw [movePieceBy_eq, movePieceBy_eq, get_opposite_value]
  simp only [Pos.mk.injEq]
  constructor <;> ring

/-- The per-direction probe loop restores the threaded position after every
trial and records exactly the first (smallest) resolving distance. -/
theorem probeDistances_spec (b : Board) (p : PieceS) (dir : Direction) :
    ∀ (ks : List ℕ) (pos : Pos),
      (probeDistances b p dir ks pos).1 = pos ∧
      (probeDistances b p dir ks pos).2 = ks.find? fun k =>
        !({ p with position := movePieceBy pos dir.value k } : PieceS).is_colliding b := by
  intro ks
  induction ks with
  | nil => intro pos; exact ⟨rfl, rfl⟩
  | cons k ks ih =>
    intro pos
    by_cases hc :
        ({ p with position := movePieceBy pos dir.value k } : PieceS).is_colliding b
    · have hpred : (!({ p with position := movePieceBy pos dir.value k } :
          PieceS).is_colliding b) = false := by simp [hc]
      have hstep : probeDistances b p dir (k :: ks) pos =
          probeDistances b p dir ks (movePieceBy (movePieceBy pos dir.value k)
            dir.get_opposite.value k) := by
        simp only [probeDistances, hpred, Bool.false_eq_true, if_false]
      rw [hstep, movePieceBy_restore]
      rcases ih pos with ⟨h1, h2⟩
      refine ⟨h1, ?_⟩
      rw [h2, List.find?_cons, hpred]
    · have hpred : (!({ p with position := movePieceBy pos dir.value k } :
          PieceS).is_colliding b) = true := by simp [hc]
      have hstep : probeDistances b p dir (k :: ks) pos =
          (movePieceBy (movePieceBy pos dir.value k) dir.get_opposite.value k, some k) := by
        simp only [probeDistances, hpred, if_true]
      rw [hstep, movePieceBy_restore]
      exact ⟨rfl, by rw [List.find?_cons, hpred]⟩

/-- The outer wall-kick loop restores the piece position and builds the
`distance_needed` dictionary in direction-enumeration order, with exactly
the functional per-direction resolving distances. -/
theorem probeLoop_fold (b : Board) (p : PieceS) :
    ∀ (ds : List Direction) (acc : List (Direction × ℕ)),
      ds.foldl
        (fun acc dir =>
          let r := probeDistances b p dir [1, 2, 3] acc.1
          (r.1, acc.2 ++ (match r.2 with
            | some k => [(dir, k)]
            | none => [])))
        (p.position, acc) =
      (p.position,
        acc ++ ds.filterMap fun d => (probeSpec b p d).map fun k => (d, k)) := by
  intro ds
  induction ds with
  | nil => intro acc; simp
  | cons d ds ih =>
    intro acc
    rw [List.foldl_cons]
    rcases probeDistances_spec b p d [1, 2, 3] p.position with ⟨h1, h2⟩
    have hspec : (probeDistances b p d [1, 2, 3] p.position).2 = probeSpec b p d := h2
    simp only [h1, hspec]
    rw [ih]
    rw [List.filterMap_cons]
    cases probeSpec b p d <;> simp

/-- `probeLoop` in closed form. -/
theorem probeLoop_spec (b : Board) (p : PieceS) :
    probeLoop b p =
      (p.position, directionList.filterMap fun d => (probeSpec b p d).map fun k => (d, k)) :=
  probeLoop_fold b p directionList []

/-- The running minimum is the first element unless a strictly smaller
value appears later: full decomposition of the fold behind `min(...)`. -/
theorem foldl_pick_spec :
    ∀ (xs : List (Direction × ℕ)) (x : Direction × ℕ),
      (xs.foldl (fun best y => if y.2 < best.2 then y else best) x = x ∧
          ∀ y ∈ xs, x.2 ≤ y.2) ∨
        (∃ l1 l2, xs = l1 ++ (xs.foldl (fun best y => if y.2 < best.2 then y else best) x) :: l2 ∧
          (xs.foldl (fun best y => if y.2 < best.2 then y else best) x).2 < x.2 ∧
          (∀ y ∈ l1, (xs.foldl (fun best y => if y.2 < best.2 then y else best) x).2 < y.2) ∧
          (∀ y ∈ l2, (xs.foldl (fun best y => if y.2 < best.2 then y else best) x).2 ≤ y.2)) := by
  intro xs
  induction xs with
  | nil => intro x; exact Or.inl ⟨rfl, by simp⟩
  | cons y ys ih =>
    intro x
    rw [List.foldl_cons]
    by_cases hlt : y.2 < x.2
    · rw [if_pos hlt]
      rcases ih y with ⟨heq, hle⟩ | ⟨l1, l2, hsplit, hm, hl1, hl2⟩
      · refine Or.inr ⟨[], ys, ?_, ?_, by simp, ?_⟩
        · rw [heq]
          rfl
        · rw [heq]; exact hlt
        · intro z hz
          rw [heq]
          exact hle z hz
      · refine Or.inr ⟨y :: l1, l2, ?_, ?_, ?_, hl2⟩
        · rw [List.cons_append, ← hsplit]
        · exact lt_trans hm hlt
        · intro z hz
          rcases List.mem_cons.mp hz with rfl | hz
          · exact hm
          · exact hl1 z hz
    · rw [if_neg hlt]
      push_neg at hlt
      rcases ih x with ⟨heq, hle⟩ | ⟨l1, l2, hsplit, hm, hl1, hl2⟩
      · refine Or.inl ⟨heq, ?_⟩
        intro z hz
        rcases List.mem_cons.mp hz with rfl | hz
        · exact hlt
        · exact hle z hz
      · refine Or.inr ⟨y :: l1, l2, ?_, hm, ?_, hl2⟩
        · rw [List.cons_append, ← hsplit]
        · intro z hz
          rcases List.mem_cons.mp hz with rfl | hz
          · exact lt_of_lt_of_le hm hlt
          · exact hl1 z hz

/-- `selectMin` of a nonempty association list decomposes the list around
the selected entry: strictly larger values before it, no smaller value
after it. -/
theorem selectMin_split {l : List (Direction × ℕ)} {m : Direction × ℕ}
    (h : selectMin l = some m) :
    ∃ l1 l2, l = l1 ++ m :: l2 ∧ (∀ y ∈ l1, m.2 < y.2) ∧ ∀ y ∈ l2, m.2 ≤ y.2 := by
  cases l with
  | nil => simp [selectMin] at h
  | cons x xs =>
    simp only [selectMin, Option.some.injEq] at h
    rcases foldl_pick_spec xs x with ⟨heq, hle⟩ | ⟨l1, l2, hsplit, hm, hl1, hl2⟩
    · have hmx : m = x := by rw [← h]; exact heq
      refine ⟨[], xs, ?_, by simp, ?_⟩
      · rw [hmx]
        rfl
      · intro z hz
        rw [hmx]
        exact hle z hz
    · rw [h] at hsplit hm hl1 hl2
      refine ⟨x :: l1, l2, by rw [List.cons_append, ← hsplit], ?_, hl2⟩
      intro z hz
      rcases List.mem_cons.mp hz with rfl | hz
      · exact hm
      · exact hl1 z hz

/-- Every direction is in the enumeration list. -/
theorem direction_mem (d : Direction) : d ∈ directionList := by
  cases d <;> simp [directionList]

/-- Membership in the `distance_needed` dictionary is exactly the
functional per-direction resolving distance. -/
theorem mem_probe_dict {b : Board} {p : PieceS} {d : Direction} {k : ℕ} :
    (d, k) ∈ (directionList.filterMap fun d' => (probeSpec b p d').map fun k' => (d', k')) ↔
      probeSpec b p d = some k := by
  rw [List.mem_filterMap]
  constructor
  · rintro ⟨a, _, ha⟩
    rw [Option.map_eq_some'] at ha
    rcases ha with ⟨c, hc, heq⟩
    injection heq with h1 h2
    subst h1
    subst h2
    exact hc
  · intro h
    refine ⟨d, direction_mem d, ?_⟩
    rw [h]
    rfl

/-- The `distance_needed` dictionary lists its keys in strictly increasing
direction-enumeration order. -/
theorem probe_dict_pairwise (b : Board) (p : PieceS) :
    List.Pairwise (fun a a' => a.1.index < a'.1.index)
      (directionList.filterMap fun d' => (probeSpec b p d').map fun k' => (d', k')) := by
  refine List.Pairwise.filterMap _ ?_ (show List.Pairwise (fun a a' : Direction =>
    a.index < a'.index) directionList by decide)
  intro a a' hlt q hq q' hq'
  simp only [Option.mem_def, Option.map_eq_some'] at hq hq'
  rcases hq with ⟨c, _, rfl⟩
  rcases hq' with ⟨c', _, rfl⟩
  exact hlt

/-- C1: when the rotated piece collides and at least one direction records
a resolving distance, the wall-kick resolver (having probed each direction
at distances 1, 2, 3 in that order — the `find?` over `[1, 2, 3]` — and
restored the position after every probe, so the loop ends at the original
position) permanently applies the translation of the direction holding the
globally smallest recorded distance, ties broken by the enumeration order
UP, RIGHT, DOWN, LEFT; the resulting piece differs from its pre-rotation
state by the new orientation and exactly that single-axis translation. -/
theorem claim1_wall_kick (s : GameState) (d : Direction)
    (h1 : (rotatedPiece s d).is_colliding s.board = true)
    (h2 : (probeLoop s.board (rotatedPiece s d)).2 ≠ []) :
    (probeLoop s.board (rotatedPiece s d)).1 = s.falling_piece.position ∧
    (probeLoop s.board (rotatedPiece s d)).2 =
      (directionList.filterMap fun d' =>
        (probeSpec s.board (rotatedPiece s d) d').map fun k' => (d', k')) ∧
    ∃ dir dist,
      selectMin (probeLoop s.board (rotatedPiece s d)).2 = some (dir, dist) ∧
      probeSpec s.board (rotatedPiece s d) dir = some dist ∧
      (∀ d' k', probeSpec s.board (rotatedPiece s d) d' = some k' → dist ≤ k') ∧
      (∀ d' k', probeSpec s.board (rotatedPiece s d) d' = some k' → k' = dist →
        dir.index ≤ d'.index) ∧
      (Game.rotate_action s d).falling_piece =
        { rotatedPiece s d with
          position := ⟨s.falling_piece.position.x + dist * dir.value.x,
                       s.falling_piece.position.y + dist * dir.value.y⟩ } := by
  have hloop := probeLoop_spec s.board (rotatedPiece s d)
  have hfst : (probeLoop s.board (rotatedPiece s d)).1 = (rotatedPiece s d).position := by
    rw [hloop]
  have hpos : (rotatedPiece s d).position = s.falling_piece.position := rfl
  have hsnd : (probeLoop s.board (rotatedPiece s d)).2 =
      (directionList.filterMap fun d' =>
        (probeSpec s.board (rotatedPiece s d) d').map fun k' => (d', k')) := by
    rw [hloop]
  refine ⟨by rw [hfst, hpos], hsnd, ?_⟩
  obtain ⟨m, hsel⟩ : ∃ m, selectMin (probeLoop s.board (rotatedPiece s d)).2 = some m := by
    cases hl : (probeLoop s.board (rotatedPiece s d)).2 with
    | nil => exact absurd hl h2
    | cons x xs => exact ⟨_, rfl⟩
  obtain ⟨dir, dist⟩ := m
  refine ⟨dir, dist, hsel, ?_⟩
  obtain ⟨l1, l2, hsplit, hl1, hl2⟩ := selectMin_split hsel
  have hmem : (dir, dist) ∈ (probeLoop s.board (rotatedPiece s d)).2 := by
    rw [hsplit]
    exact List.mem_append.mpr (Or.inr (List.mem_cons_self _ _))
  have hprobe : probeSpec s.board (rotatedPiece s d) dir = some dist := by
    rw [hsnd] at hmem
    exact mem_probe_dict.mp hmem
  have hglobal : ∀ d' k', probeSpec s.board (rotatedPiece s d) d' = some k' → dist ≤ k' := by
    intro d' k' h'
    have hmem' : (d', k') ∈ (probeLoop s.board (rotatedPiece s d)).2 := by
      rw [hsnd]
      exact mem_probe_dict.mpr h'
    rw [hsplit] at hmem'
    rcases List.mem_append.mp hmem' with h | h
    · exact le_of_lt (hl1 _ h)
    · rcases List.mem_cons.mp h with heq | h
      · injection heq with _ hk
        omega
      · exact hl2 _ h
  have hpair : List.Pairwise (fun a a' => a.1.index < a'.1.index)
      (probeLoop s.board (rotatedPiece s d)).2 := by
    rw [hsnd]
    exact probe_dict_pairwise s.board (rotatedPiece s d)
  have htie : ∀ d' k', probeSpec s.board (rotatedPiece s d) d' = some k' → k' = dist →
      dir.index ≤ d'.index := by
    intro d' k' h' hk
    have hmem' : (d', k') ∈ (probeLoop s.board (rotatedPiece s d)).2 := by
      rw [hsnd]
      exact mem_probe_dict.mpr h'
    rw [hsplit] at hmem' hpair
    rcases List.mem_append.mp hmem' with h | h
    · exact absurd (hl1 _ h) (by omega)
    · rcases List.mem_cons.mp h with heq | h
      · injection heq with hd _
        rw [hd]
      · have := List.rel_of_pairwise_cons (List.pairwise_append.mp hpair).2.1 h
        exact le_of_lt this
  refine ⟨hprobe, hglobal, htie, ?_⟩
  have hact : Game.rotate_action s d =
      { s with falling_piece :=
        { rotatedPiece s d with
          position := movePieceBy (probeLoop s.board (rotatedPiece s d)).1
            dir.value dist } } := by
    simp only [Game.rotate_action]
    rw [h1]
    simp only [if_true]
    rw [hsel]
  rw [hact, hfst, hpos, movePieceBy_eq]

/-- Witness for C1: the vertical `I` piece at the left wall rotated
clockwise collides, records an escape, and the loop's final position is
the pre-rotation position. -/
theorem claim1_witness :
    (rotatedPiece (fixtureState initialBoard) Direction.RIGHT).is_colliding
        (fixtureState initialBoard).board = true ∧
      (probeLoop (fixtureState initialBoard).board
        (rotatedPiece (fixtureState initialBoard) Direction.RIGHT)).2 ≠ [] ∧
      (probeLoop (fixtureState initialBoard).board
        (rotatedPiece (fixtureState initialBoard) Direction.RIGHT)).1 =
        (fixtureState initialBoard).falling_piece.position :=
  ⟨by decide, by decide,
    (claim1_wall_kick (fixtureState initialBoard) Direction.RIGHT
      (by decide) (by decide)).1⟩

/-- Spawning leaves the input bookkeeping untouched. -/
theorem spawn_preserves (s : GameState) :
    (Game.spawn_piece s).2.keys = s.keys ∧ (Game.spawn_piece s).2.last_keys = s.last_keys ∧
      (Game.spawn_piece s).2.repeat_delays = s.repeat_delays := by
  simp only [Game.spawn_piece]
  split <;> exact ⟨rfl, rfl, rfl⟩

/-- Gravity (and the lock/clear/spawn chain it may trigger) leaves the
input bookkeeping untouched. -/
theorem fall_preserves (s : GameState) :
    (Game.fall s).keys = s.keys ∧ (Game.fall s).last_keys = s.last_keys ∧
      (Game.fall s).repeat_delays = s.repeat_delays := by
  refine ⟨?_, ?_, ?_⟩ <;> (simp only [Game.fall]; split)
  · exact (spawn_preserves _).1
  · rfl
  · exact (spawn_preserves _).2.1
  · rfl
  · exact (spawn_preserves _).2.2
  · rfl

set_option maxHeartbeats 2000000 in
/-- Every bound action leaves the input bookkeeping untouched. -/
theorem action_preserves (s : GameState) (a : GameAction) :
    (applyAction s a).keys = s.keys ∧ (applyAction s a).last_keys = s.last_keys ∧
      (applyAction s a).repeat_delays = s.repeat_delays := by
  cases a with
  | rotateA d =>
    have hr : ∀ (b : Board) (p1 : PieceS) (dd : Direction),
        ((if p1.is_colliding b then
            match selectMin (probeLoop b p1).2 with
            | some dk => { s with falling_piece :=
                { p1 with position := movePieceBy (probeLoop b p1).1 dk.1.value dk.2 } }
            | none => { s with falling_piece :=
                { p1 with rotation := p1.rotation.rotate (dd == Direction.LEFT) } }
          else { s with falling_piece := p1 }) : GameState).keys = s.keys ∧
        ((if p1.is_colliding b then
            match selectMin (probeLoop b p1).2 with
            | some dk => { s with falling_piece :=
                { p1 with position := movePieceBy (probeLoop b p1).1 dk.1.value dk.2 } }
            | none => { s with falling_piece :=
                { p1 with rotation := p1.rotation.rotate (dd == Direction.LEFT) } }
          else { s with falling_piece := p1 }) : GameState).last_keys = s.last_keys ∧
        ((if p1.is_colliding b then
            match selectMin (probeLoop b p1).2 with
            | some dk => { s with falling_piece :=
                { p1 with position := movePieceBy (probeLoop b p1).1 dk.1.value dk.2 } }
            | none => { s with falling_piece :=
                { p1 with rotation := p1.rotation.rotate (dd == Direction.LEFT) } }
          else { s with falling_piece := p1 }) : GameState).repeat_delays =
          s.repeat_delays := by
      intro b p1 dd
      split
      · cases selectMin (probeLoop b p1).2 <;> exact ⟨rfl, rfl, rfl⟩
      · exact ⟨rfl, rfl, rfl⟩
    exact hr s.board (rotatedPiece s d) d
  | moveA d =>
    refine ⟨?_, ?_, ?_⟩ <;> (simp only [applyAction, Game.move_action]; split) <;> rfl
  | dropA =>
    have h := spawn_preserves (Game.place_piece
      { s with falling_piece := s.falling_piece.dropPiece s.board }
      (s.falling_piece.dropPiece s.board))
    exact ⟨h.1, h.2.1, h.2.2⟩

/-- `find?` for a key is unchanged by overwriting a different key's entry. -/
theorem find?_map_ne (k k' : ℕ) (v : Option ℚ) (h : k' ≠ k) :
    ∀ l : List (ℕ × Option ℚ),
      ((l.map fun kv => if kv.1 == k then (k, v) else kv).find? fun kv => kv.1 == k') =
        l.find? fun kv => kv.1 == k' := by
  intro l
  induction l with
  | nil => rfl
  | cons kv l ih =>
    simp only [List.map_cons, List.find?_cons]
    by_cases hk : kv.1 == k
    · have hkv : kv.1 = k := by simpa using hk
      have h1 : ((k, v).1 == k') = false := by
        simp only [beq_eq_false_iff_ne, ne_eq]
        omega
      have h2 : (kv.1 == k') = false := by
        simp only [beq_eq_false_iff_ne, ne_eq, hkv]
        omega
      simp only [hk, if_true, h1, h2]
      exact ih
    · simp only [hk, Bool.false_eq_true, if_false]
      by_cases hk' : kv.1 == k'
      · simp [hk']
      · simp only [hk', Bool.false_eq_true, if_false]
        exact ih

/-- `find?` for a key is unchanged by appending a different key's entry. -/
theorem find?_append_one_ne (k k' : ℕ) (v : Option ℚ) (h : k' ≠ k) :
    ∀ l : List (ℕ × Option ℚ),
      ((l ++ [(k, v)]).find? fun kv => kv.1 == k') = l.find? fun kv => kv.1 == k' := by
  intro l
  induction l with
  | nil =>
    simp only [List.nil_append, List.find?_cons, List.find?_nil]
    have h1 : ((k, v).1 == k') = false := by
      simp only [beq_eq_false_iff_ne, ne_eq]
      omega
    simp [h1]
  | cons kv l ih =>
    simp only [List.cons_append, List.find?_cons]
    by_cases hk' : kv.1 == k'
    · simp [hk']
    · simp only [hk', Bool.false_eq_true, if_false]
      exact ih

/-- Looking up a key other than the one just stored is unchanged. -/
theorem dictGet_dictSet_ne (l : List (ℕ × Option ℚ)) (k k' : ℕ) (v : Option ℚ)
    (h : k' ≠ k) : dictGet (dictSet l k v) k' = dictGet l k' := by
  unfold dictSet dictGet
  split
  · rw [find?_map_ne k k' v h]
  · rw [find?_append_one_ne k k' v h]

/-- The firing condition only reads the key set, the previous key set and
the key's own delay entry. -/
theorem fireCondB_congr (s s' : GameState) (e : ℕ × GameAction × Option ℚ)
    (hk : s'.keys = s.keys) (hl : s'.last_keys = s.last_keys)
    (hd : dictGet s'.repeat_delays e.1 = dictGet s.repeat_delays e.1) :
    fireCondB s' e = fireCondB s e := by
  unfold fireCondB
  rw [hk, hl, hd]

/-- One dispatch iteration: fires exactly under `fireCondB`, appends the
fired key, preserves the key sets and touches no other key's delay entry. -/
theorem processKey_spec (dt : ℚ) (s : GameState) (fs : List ℕ)
    (e : ℕ × GameAction × Option ℚ) :
    (processKey dt (s, fs) e).2 = fs ++ (if fireCondB s e then [e.1] else []) ∧
    (processKey dt (s, fs) e).1.keys = s.keys ∧
    (processKey dt (s, fs) e).1.last_keys = s.last_keys ∧
    ∀ k' ≠ e.1, dictGet (processKey dt (s, fs) e).1.repeat_delays k' =
      dictGet s.repeat_delays k' := by
  unfold processKey fireCondB
  by_cases hc1 : s.keys.contains e.1
  · simp only [hc1, if_true, Bool.true_and]
    by_cases hc2 : (!(s.last_keys.contains e.1) ||
        (e.2.2.isSome && decide ((((dictGet s.repeat_delays e.1).getD (some 0)).getD 0) ≤ 0)))
    · simp only [hc2, if_true]
      obtain ⟨ha1, ha2, ha3⟩ := action_preserves s e.2.1
      refine ⟨by trivial, ha1, ha2, ?_⟩
      intro k' hk'
      show dictGet (dictSet (Game.update_ghost_piece (applyAction s e.2.1)).repeat_delays
        e.1 e.2.2) k' = _
      rw [dictGet_dictSet_ne _ _ _ _ hk']
      show dictGet (applyAction s e.2.1).repeat_delays k' = _
      rw [ha3]
    · simp only [hc2, Bool.false_eq_true, if_false]
      refine ⟨by simp, by trivial, by trivial, ?_⟩
      intro k' hk'
      exact dictGet_dictSet_ne _ _ _ _ hk'
  · simp only [hc1, Bool.false_eq_true, if_false, Bool.false_and]
    exact ⟨by simp, by trivial, by trivial, fun _ _ => by trivial⟩

/-- The dispatch fold over distinct-key entries: the fired keys are exactly
the entries whose firing condition held at loop entry, in order; the key
sets pass through unchanged. -/
theorem foldl_processKey_spec (dt : ℚ) :
    ∀ (es : List (ℕ × GameAction × Option ℚ)) (s : GameState) (fs : List ℕ),
      es.Pairwise (fun a b => a.1 ≠ b.1) →
      (es.foldl (processKey dt) (s, fs)).2 =
        fs ++ (es.filterMap fun e => if fireCondB s e then some e.1 else none) ∧
      (es.foldl (processKey dt) (s, fs)).1.keys = s.keys ∧
      (es.foldl (processKey dt) (s, fs)).1.last_keys = s.last_keys := by
  intro es
  induction es with
  | nil => intro s fs _; exact ⟨by simp, rfl, rfl⟩
  | cons e es ih =>
    intro s fs hdist
    rw [List.foldl_cons]
    obtain ⟨hf, hk, hl, hd⟩ := processKey_spec dt s fs e
    have hstep : processKey dt (s, fs) e =
        ((processKey dt (s, fs) e).1, fs ++ (if fireCondB s e then [e.1] else [])) := by
      rw [← hf]
    rw [hstep]
    obtain ⟨ihf, ihk, ihl⟩ := ih (processKey dt (s, fs) e).1
      (fs ++ (if fireCondB s e then [e.1] else [])) hdist.of_cons
    have hcong : (es.filterMap fun e' =>
        if fireCondB (processKey dt (s, fs) e).1 e' then some e'.1 else none) =
        (es.filterMap fun e' => if fireCondB s e' then some e'.1 else none) := by
      refine List.filterMap_congr ?_
      intro e' he'
      have hne : e'.1 ≠ e.1 := (List.rel_of_pairwise_cons hdist he').symm
      rw [fireCondB_congr s (processKey dt (s, fs) e).1 e' hk hl (hd e'.1 hne)]
    refine ⟨?_, by rw [ihk, hk], by rw [ihl, hl]⟩
    rw [ihf, hcong, List.filterMap_cons]
    by_cases hfc : fireCondB s e
    · simp only [hfc, if_true, List.append_assoc, List.singleton_append]
    · simp only [hfc, Bool.false_eq_true, if_false, List.append_nil]

/-- With the game-over flag set, a tick returns immediately. -/
theorem on_update_gameover (s : GameState) (dt : ℚ) (h : s.game_over = true) :
    Game.on_update s dt = (s, []) := by
  simp [Game.on_update, h]

/-- A live tick: afterwards `last_keys` holds this frame's keys, and the
fired keys are exactly the entries of `key_actions` whose firing condition
held at the start of the tick (gravity touches no input bookkeeping). -/
theorem on_update_spec (s : GameState) (dt : ℚ) (hgo : s.game_over = false) :
    (Game.on_update s dt).1.last_keys = s.keys ∧
    (Game.on_update s dt).2 =
      (key_actions.filterMap fun e => if fireCondB s e then some e.1 else none) := by
  have hkeyact : ∀ s1 : GameState, s1.keys = s.keys → s1.last_keys = s.last_keys →
      s1.repeat_delays = s.repeat_delays →
      ({ (key_actions.foldl (processKey dt) (s1, [])).1 with
          last_keys := (key_actions.foldl (processKey dt) (s1, [])).1.keys } :
            GameState).last_keys = s.keys ∧
      (key_actions.foldl (processKey dt) (s1, [])).2 =
        (key_actions.filterMap fun e => if fireCondB s e then some e.1 else none) := by
    intro s1 h1 h2 h3
    obtain ⟨hf, hk, hl⟩ := foldl_processKey_spec dt key_actions s1 [] (by decide)
    constructor
    · show (key_actions.foldl (processKey dt) (s1, [])).1.keys = s.keys
      rw [hk, h1]
    · rw [hf, List.nil_append]
      refine List.filterMap_congr ?_
      intro e he
      have hcong : fireCondB s1 e = fireCondB s e := by
        unfold fireCondB
        rw [h1, h2, h3]
      rw [hcong]
  simp only [Game.on_update, hgo, Bool.false_eq_true, if_false]
  split
  · exact hkeyact _ (fall_preserves s).1 (fall_preserves s).2.1 (fall_preserves s).2.2
  · exact hkeyact _ rfl rfl rfl

/-- A non-repeatable entry fires exactly on a fresh key-down observation. -/
theorem fireCondB_nonrepeat (s : GameState) (k : ℕ) (a : GameAction) :
    fireCondB s (k, a, (none : Option ℚ)) =
      (s.keys.contains k && !(s.last_keys.contains k)) := by
  unfold fireCondB
  simp

/-- A key is among the fired keys exactly when its own entry fired. -/
theorem mem_fired_iff (s : GameState) (k : ℕ) (a : GameAction) (ra : Option ℚ)
    (hk : (k, a, ra) ∈ key_actions)
    (huniq : ∀ e ∈ key_actions, e.1 = k → e = (k, a, ra)) :
    (k ∈ key_actions.filterMap fun e => if fireCondB s e then some e.1 else none) ↔
      fireCondB s (k, a, ra) = true := by
  rw [List.mem_filterMap]
  constructor
  · rintro ⟨e, he, hfe⟩
    by_cases hc : fireCondB s e
    · rw [if_pos hc] at hfe
      have he1 : e.1 = k := by
        injection hfe
      have := huniq e he he1
      rw [this] at hc
      exact hc
    · rw [if_neg hc] at hfe
      cases hfe
  · intro hc
    exact ⟨(k, a, ra), hk, by rw [if_pos hc]⟩

/-- A run of frames produces one fired-key list per frame. -/
theorem firedTrace_length (ticks : List (List ℕ × ℚ)) : ∀ s : GameState,
    (firedTrace s ticks).length = ticks.length := by
  induction ticks with
  | nil => intro s; rfl
  | cons t rest ih =>
    intro s
    obtain ⟨ks, dt⟩ := t
    simp only [firedTrace, List.length_cons, ih]

/-- Once a non-repeatable key is recorded in `last_keys` (or the game is
over), it never fires again while continuously held. -/
theorem trace_no_refire (k : ℕ) (a : GameAction)
    (hk : (k, a, (none : Option ℚ)) ∈ key_actions)
    (huniq : ∀ e ∈ key_actions, e.1 = k → e = (k, a, (none : Option ℚ))) :
    ∀ (ticks : List (List ℕ × ℚ)) (st : GameState),
      (k ∈ st.last_keys ∨ st.game_over = true) →
      (∀ t ∈ ticks, k ∈ t.1) →
      ∀ l ∈ firedTrace st ticks, k ∉ l := by
  intro ticks
  induction ticks with
  | nil =>
    intro st _ _ l hl
    simp [firedTrace] at hl
  | cons t rest ih =>
    obtain ⟨ks, dt⟩ := t
    intro st hinv hheld l hl
    simp only [firedTrace, List.mem_cons] at hl
    by_cases hgo : st.game_over = true
    · have ht : tickWith st ks dt = ({ st with keys := ks }, []) :=
        on_update_gameover { st with keys := ks } dt hgo
      rcases hl with rfl | hl
      · rw [ht]
        simp
      · rw [ht] at hl
        refine ih { st with keys := ks } (Or.inr hgo) ?_ l hl
        intro t ht'
        exact hheld t (List.mem_cons_of_mem _ ht')
    · have hgof : st.game_over = false := by
        simp only [Bool.not_eq_true] at hgo
        exact hgo
      have hlast : k ∈ st.last_keys := by
        rcases hinv with h | h
        · exact h
        · rw [h] at hgof
          cases hgof
      obtain ⟨hlk, hfired⟩ := on_update_spec { st with keys := ks } dt hgof
      rcases hl with rfl | hl
      · show k ∉ (tickWith st ks dt).2
        show k ∉ (Game.on_update { st with keys := ks } dt).2
        rw [hfired]
        rw [mem_fired_iff _ k a none hk huniq, fireCondB_nonrepeat]
        intro hcontra
        have : ({ st with keys := ks } : GameState).last_keys.contains k = true := by
          show st.last_keys.contains k = true
          simp only [List.elem_eq_mem, decide_eq_true_eq]
          exact hlast
        rw [this] at hcontra
        simp at hcontra
      · refine ih (tickWith st ks dt).1 (Or.inl ?_) ?_ l hl
        · show k ∈ (Game.on_update { st with keys := ks } dt).1.last_keys
          rw [hlk]
          exact hheld (ks, dt) (List.mem_cons_self _ _)
        · intro t ht'
          exact hheld t (List.mem_cons_of_mem _ ht')

/-- C9: while a key bound to a non-repeatable action (rotate clockwise or
counter-clockwise, or hard drop — the `key_actions` entries with `none`
repeat delay) is continuously held from a tick on which it first appears
as pressed, the bound action fires on that first tick and on no later tick
of the run; one fired-key list is produced per tick. -/
theorem claim9_nonrepeat_single_fire (s : GameState) (ticks : List (List ℕ × ℚ))
    (k : ℕ) (a : GameAction)
    (hk : (k, a, (none : Option ℚ)) ∈ key_actions)
    (huniq : ∀ e ∈ key_actions, e.1 = k → e = (k, a, (none : Option ℚ)))
    (hgo : s.game_over = false)
    (hheld : ∀ t ∈ ticks, k ∈ t.1)
    (hfresh : k ∉ s.last_keys) :
    (firedTrace s ticks).length = ticks.length ∧
    (∀ l0 ∈ (firedTrace s ticks).take 1, k ∈ l0) ∧
    (∀ l ∈ (firedTrace s ticks).drop 1, k ∉ l) := by
  refine ⟨firedTrace_length ticks s, ?_, ?_⟩
  · cases ticks with
    | nil => intro l0 hl0; simp [firedTrace] at hl0
    | cons t rest =>
      obtain ⟨ks, dt⟩ := t
      intro l0 hl0
      simp only [firedTrace, List.take_succ_cons, List.take_zero, List.mem_singleton] at hl0
      subst hl0
      obtain ⟨hlk, hfired⟩ := on_update_spec { s with keys := ks } dt hgo
      show k ∈ (Game.on_update { s with keys := ks } dt).2
      rw [hfired, mem_fired_iff _ k a none hk huniq, fireCondB_nonrepeat]
      have h1 : ({ s with keys := ks } : GameState).keys.contains k = true := by
        show ks.contains k = true
        simp only [List.elem_eq_mem, decide_eq_true_eq]
        exact hheld (ks, dt) (List.mem_cons_self _ _)
      have h2 : ({ s with keys := ks } : GameState).last_keys.contains k = false := by
        show s.last_keys.contains k = false
        simp only [List.elem_eq_mem, decide_eq_false_iff_not]
        exact hfresh
      rw [h1, h2]
      rfl
  · cases ticks with
    | nil => intro l hl; simp [firedTrace] at hl
    | cons t rest =>
      obtain ⟨ks, dt⟩ := t
      intro l hl
      simp only [firedTrace, List.drop_succ_cons, List.drop_zero] at hl
      obtain ⟨hlk, _⟩ := on_update_spec { s with keys := ks } dt hgo
      refine trace_no_refire k a hk huniq rest (tickWith s ks dt).1 (Or.inl ?_) ?_ l hl
      · show k ∈ (Game.on_update { s with keys := ks } dt).1.last_keys
        rw [hlk]
        exact hheld (ks, dt) (List.mem_cons_self _ _)
      · intro t ht'
        exact hheld t (List.mem_cons_of_mem _ ht')

/-- Witness for C9: holding the rotate-clockwise key for three frames from
a fresh press fires it on the first frame only. -/
theorem claim9_witness :
    (KEY_UP, GameAction.rotateA Direction.RIGHT, (none : Option ℚ)) ∈ key_actions ∧
      (fixtureState initialBoard).game_over = false ∧
      KEY_UP ∉ (fixtureState initialBoard).last_keys ∧
      (∀ l0 ∈ (firedTrace (fixtureState initialBoard)
          [([KEY_UP], 1), ([KEY_UP], 1), ([KEY_UP], 1)]).take 1, KEY_UP ∈ l0) ∧
      (∀ l ∈ (firedTrace (fixtureState initialBoard)
          [([KEY_UP], 1), ([KEY_UP], 1), ([KEY_UP], 1)]).drop 1, KEY_UP ∉ l) :=
  ⟨by decide, by decide, by decide,
    (claim9_nonrepeat_single_fire (fixtureState initialBoard)
      [([KEY_UP], 1), ([KEY_UP], 1), ([KEY_UP], 1)] KEY_UP
      (GameAction.rotateA Direction.RIGHT) (by decide) (by decide) (by decide)
      (by decide) (by decide)).2.1,
    (claim9_nonrepeat_single_fire (fixtureState initialBoard)
      [([KEY_UP], 1), ([KEY_UP], 1), ([KEY_UP], 1)] KEY_UP
      (GameAction.rotateA Direction.RIGHT) (by decide) (by decide) (by decide)
      (by decide) (by decide)).2.2⟩

end ArcadeTetris
